import Mathlib

/-!
# Trace-context codec and probabilistic categorizer sampler

A shallow embedding of `src/jaegertracing/SpanContext.cpp` and
`src/jaegertracing/samplers/ProbabilisticCategorizerSampler.h`.

Conventions of the embedding:

* a `std::string` is a `List Char`, one `Char` per `char` of the string;
* `uint64_t` and `uint8_t` values are `Nat`, reduced `% 2 ^ 64` / `% 256`
  wherever the C++ code narrows or can wrap;
* `long double` values are exact rationals: the rounding of a product to the
  floating-point format is not part of the embedding;
* a function with an output parameter (`std::string& str`, `bool& skip`)
  returns the new values of those parameters;
* a member function that mutates `*this` and returns `bool` returns the pair of the
  `bool` and the new object.
-/

namespace jaegertracing

/-! ## Data model -/

/-- The trace id: two unsigned 64-bit words. -/
structure TraceID where
  high : Nat
  low : Nat
deriving DecidableEq

/-- The span context `{_traceID, _spanID, _parentID, _flags}`. -/
structure SpanContext where
  traceID : TraceID
  spanID : Nat
  parentID : Nat
  flags : Nat
deriving DecidableEq

/-- The words of a trace id fit `uint64_t`. -/
def TraceID.WF (t : TraceID) : Prop := t.high < 2 ^ 64 ∧ t.low < 2 ^ 64

/-- Every field of a span context fits its C++ type (`uint64_t`, and one byte of flags). -/
def SpanContext.WF (c : SpanContext) : Prop :=
  c.traceID.WF ∧ c.spanID < 2 ^ 64 ∧ c.parentID < 2 ^ 64 ∧ c.flags < 256

instance (t : TraceID) : Decidable t.WF := by unfold TraceID.WF; infer_instance

instance (c : SpanContext) : Decidable c.WF := by unfold SpanContext.WF; infer_instance

/-- Modelled from the spec: the default-constructed `SpanContext()` of `SpanContext.h`
(not part of the sources at hand), the "invalid/empty context" with every field zero. -/
def SpanContext.default : SpanContext := ⟨⟨0, 0⟩, 0, 0, 0⟩

/-- Modelled from the spec: `TraceID::isValid` of `TraceID.h` (not part of the sources at
hand); a trace id is valid when it is non-zero. -/
def TraceID.isValid (t : TraceID) : Bool := t.high != 0 || t.low != 0

/-! ## Hex primitives -/

/-- The table `static const char hexValues[] = "0123456789abcdef"`. -/
def hexValues : List Char := "0123456789abcdef".toList

/-- The character `hexValues[d]`. -/
def hexChar (d : Nat) : Char := hexValues.getD d (Char.ofNat 0)

/-- The function `writeHexByte(str, v, skip)`: appends the two nibbles of the byte `v`, most
significant first; a zero nibble is dropped while `skip` is still set. Returns the new
`str` and `skip`. The parameter is a `uint8_t`, hence `v % 256`. -/
def writeHexByte (str : List Char) (v : Nat) (skip : Bool) : List Char × Bool :=
  let v := v % 256
  let hi := (v / 16) % 16
  let r : List Char × Bool :=
    if !skip || hi != 0 then (str ++ [hexChar hi], false) else (str, skip)
  let lo := v % 16
  if !r.2 || lo != 0 then (r.1 ++ [hexChar lo], false) else r

/-- The function `writeHex(str, v, skip, notEmpty)`: the loop `for (b = 7; b >= 0; --b)`
over the bytes `(v >> (b*8)) & 0xFF`, then a single `'0'` if nothing was written and
`notEmpty`. -/
def writeHex (str : List Char) (v : Nat) (skip : Bool) (notEmpty : Bool) : List Char :=
  let r := [7, 6, 5, 4, 3, 2, 1, 0].foldl
    (fun (acc : List Char × Bool) (b : Nat) =>
      writeHexByte acc.1 ((v / 2 ^ (b * 8)) % 256) acc.2) (str, skip)
  if r.2 && notEmpty then r.1 ++ ['0'] else r.1

/-- Modelled from the spec: the digit test of `decodeHex` (not part of the sources at hand),
the value of one hexadecimal digit character of either case, if it is one. -/
def hexDigit? (ch : Char) : Option Nat :=
  if '0' ≤ ch ∧ ch ≤ '9' then some (ch.toNat - 48)
  else if 'a' ≤ ch ∧ ch ≤ 'f' then some (ch.toNat - 87)
  else if 'A' ≤ ch ∧ ch ≤ 'F' then some (ch.toNat - 55)
  else none

/-- Modelled from the spec: the accumulation loop of `decodeHex` (not part of the sources at
hand), for a result type of `w` bits. -/
def decodeHexAux (w : Nat) : Nat → List Char → Nat
  | acc, [] => acc
  | acc, ch :: rest =>
    match hexDigit? ch with
    | some d => decodeHexAux w ((acc * 16 + d) % 2 ^ w) rest
    | none => 0

/-- Modelled from the spec: `utils::HexParsing::decodeHex<T>` of `utils/HexParsing.h` (not
part of the sources at hand), which "parses a bounded hex character range into an unsigned
integer of width T": the digits are accumulated most significant first, starting from 0, in
`w`-bit arithmetic, so that an empty range has the value 0. The spec leaves open what a
character that is not a hexadecimal digit does; here it ends the parse with the value 0. -/
def decodeHex (w : Nat) (s : List Char) : Nat := decodeHexAux w 0 s

/-! ## `SpanContext::inject` and `SpanContext::extract` -/

/-- The member function `SpanContext::inject`: the text it returns. -/
def SpanContext.inject (c : SpanContext) : List Char :=
  let res : List Char := []
  let res :=
    if c.traceID.high != 0 then
      writeHex (writeHex res c.traceID.high true false) c.traceID.low false true
    else
      writeHex res c.traceID.low true true
  let res := res ++ [':']
  let res := writeHex res c.spanID true true
  let res := res ++ [':']
  let res := writeHex res c.parentID true true
  let res := res ++ [':']
  (writeHexByte res c.flags true).1

/-- The search loop of `find_first_of`: the index of the first `c` in `s`, where the head
of `s` has index `i`. -/
def findFrom (c : Char) : List Char → Nat → Option Nat
  | [], _ => none
  | x :: xs, i => if x = c then some i else findFrom c xs (i + 1)

/-- The call `s.find_first_of(c, pos)`; `none` is `npos`. -/
def find_first_of (s : List Char) (c : Char) (pos : Nat) : Option Nat :=
  findFrom c (s.drop pos) pos

/-- The character range `[&s[a], &s[b])`. -/
def slice (s : List Char) (a b : Nat) : List Char := (s.drop a).take (b - a)

/-- The member function `SpanContext::extract`: the returned `bool` and the object after the
call. -/
def SpanContext.extract (self : SpanContext) (trace : List Char) : Bool × SpanContext :=
  match find_first_of trace ':' 0 with
  | none => (false, self)
  | some p =>
    let self : SpanContext :=
      if p > 16 then
        { self with traceID :=
            ⟨decodeHex 64 (slice trace 0 (p - 16)), decodeHex 64 (slice trace (p - 16) p)⟩ }
      else
        { self with traceID := ⟨0, decodeHex 64 (slice trace 0 p)⟩ }
    match find_first_of trace ':' (p + 1) with
    | none => (false, self)
    | some p2 =>
      let self : SpanContext := { self with spanID := decodeHex 64 (slice trace (p + 1) p2) }
      match find_first_of trace ':' (p2 + 1) with
      | none => (false, self)
      | some p3 =>
        let self : SpanContext :=
          { self with parentID := decodeHex 64 (slice trace (p2 + 1) p3) }
        (true, { self with flags := decodeHex 64 (slice trace (p3 + 1) trace.length) % 256 })

/-! ## `SpanContext::fromStream` -/

/-- The `std::istream` the decoder reads: the characters not yet consumed, and whether the
stream is still good (no fail/eof bit set). -/
structure IStream where
  chars : List Char
  good : Bool
deriving DecidableEq

/-- The call `in.get(ch)`: the character read (if any) and the stream afterwards. On a stream
that is not good, or at the end of input, nothing is read and the stream is failed. -/
def IStream.get (inp : IStream) : Option Char × IStream :=
  if inp.good then
    match inp.chars with
    | [] => (none, { inp with good := false })
    | c :: rest => (some c, { inp with chars := rest })
  else (none, inp)

/-- The call `in.clear()`. -/
def IStream.clear (inp : IStream) : IStream := { inp with good := true }

/-- The static function `SpanContext::fromStream`. The collaborators `TraceID::fromStream` and
`utils::HexParsing::readSegment` are declared outside the sources at hand and are taken as the
parameters `readTraceID` and `readSegment`; each returns its result and the stream afterwards.
The result is the returned context and the stream after the call. -/
def SpanContext.fromStream (readTraceID : IStream → TraceID × IStream)
    (readSegment : IStream → Nat → Char → List Char × IStream) (inp : IStream) :
    SpanContext × IStream :=
  let spanContext : SpanContext := SpanContext.default
  let r := readTraceID inp
  let spanContext : SpanContext := { spanContext with traceID := r.1 }
  let inp := r.2
  if !spanContext.traceID.isValid then (SpanContext.default, inp) else
  let g := inp.get
  let inp := g.2
  if g.1 ≠ some ':' then (SpanContext.default, inp) else
  let kMaxUInt64Chars := 16
  let b := readSegment inp kMaxUInt64Chars ':'
  let inp := b.2
  if b.1.isEmpty then (SpanContext.default, inp) else
  let spanContext : SpanContext := { spanContext with spanID := decodeHex 64 b.1 }
  let g := inp.get
  let inp := g.2
  if g.1 ≠ some ':' then (SpanContext.default, inp) else
  let b := readSegment inp kMaxUInt64Chars ':'
  let inp := b.2
  if b.1.isEmpty then (SpanContext.default, inp) else
  let spanContext : SpanContext := { spanContext with parentID := decodeHex 64 b.1 }
  let g := inp.get
  let inp := g.2
  if g.1 ≠ some ':' then (SpanContext.default, inp) else
  let kMaxByteChars := 2
  let b := readSegment inp kMaxByteChars ':'
  let inp := b.2
  if b.1.isEmpty then (SpanContext.default, inp) else
  let spanContext : SpanContext := { spanContext with flags := decodeHex 8 b.1 }
  (spanContext, inp.clear)

/-- The violations `fromStream` checks for, on the run of its steps in order: the trace-id
reader yields an invalid id, one of the three `':'` is not the next character, or one of the
three segments reads as empty. -/
def fromStreamViolation (readTraceID : IStream → TraceID × IStream)
    (readSegment : IStream → Nat → Char → List Char × IStream) (inp : IStream) : Prop :=
  let r := readTraceID inp
  let g1 := r.2.get
  let b1 := readSegment g1.2 16 ':'
  let g2 := b1.2.get
  let b2 := readSegment g2.2 16 ':'
  let g3 := b2.2.get
  let b3 := readSegment g3.2 2 ':'
  r.1.isValid = false ∨ g1.1 ≠ some ':' ∨ b1.1 = [] ∨ g2.1 ≠ some ':' ∨ b2.1 = [] ∨
    g3.1 ≠ some ':' ∨ b3.1 = []

instance (readTraceID : IStream → TraceID × IStream)
    (readSegment : IStream → Nat → Char → List Char × IStream) (inp : IStream) :
    Decidable (fromStreamViolation readTraceID readSegment inp) := by
  unfold fromStreamViolation
  infer_instance

/-- Modelled from the spec: the reading loop of `utils::HexParsing::readSegment` (not part of
the sources at hand). At most `n` more hexadecimal characters are read into `buffer`; the
segment ends before the delimiter, which stays in the stream, or at the end of the input. A
character that is no hexadecimal digit, or a further character once the cap is reached, makes
the segment malformed, and the text read is empty. Returns the text, the characters left, and
whether the end of the input was hit. -/
def readSegmentLoop (delimiter : Char) : List Char → Nat → List Char →
    List Char × List Char × Bool
  | [], _, buffer => (buffer, [], true)
  | ch :: rest, n, buffer =>
    if ch = delimiter then (buffer, ch :: rest, false)
    else if n = 0 then ([], ch :: rest, false)
    else if (hexDigit? ch).isSome then readSegmentLoop delimiter rest (n - 1) (buffer ++ [ch])
    else ([], rest, false)

/-- Modelled from the spec: `utils::HexParsing::readSegment(in, maxChars, delimiter)` (not part
of the sources at hand), which "reads up to `maxChars` characters from a bounded source,
stopping at `delimiter`", and "returns empty text if the segment is malformed". Returns the text
and the stream afterwards. -/
def readSegment (inp : IStream) (maxChars : Nat) (delimiter : Char) : List Char × IStream :=
  if inp.good then
    let r := readSegmentLoop delimiter inp.chars maxChars []
    (r.1, { chars := r.2.1, good := !r.2.2 })
  else ([], inp)

/-- Modelled from the spec: `TraceID::fromStream` (not part of the sources at hand), the
trace-id reader, which accepts 1 to 32 hexadecimal digits and yields the invalid id `(0, 0)` on
malformed input; of more than 16 digits the last 16 are the low word. -/
def TraceID.fromStream (inp : IStream) : TraceID × IStream :=
  let r := readSegment inp 32 ':'
  let buffer := r.1
  if buffer.isEmpty then (⟨0, 0⟩, r.2)
  else if buffer.length > 16 then
    (⟨decodeHex 64 (buffer.take (buffer.length - 16)),
      decodeHex 64 (buffer.drop (buffer.length - 16))⟩, r.2)
  else (⟨0, decodeHex 64 buffer⟩, r.2)

namespace samplers

/-! ## `ProbabilisticCategorizerSampler` -/

/-- The data members `_samplingBoundaries` and `_defaultSamplingBoundary` (the constant
`_tags` is left out). -/
structure ProbabilisticCategorizerSampler where
  samplingBoundaries : List (List Char × Nat)
  defaultSamplingBoundary : Nat
deriving DecidableEq

/-- The literal `"default"`. -/
def defaultName : List Char := "default".toList

/-- The body of the constructor's loop for one entry `sr`, with `bound` the boundary
computed for its rate. -/
def addSamplingRate (s : ProbabilisticCategorizerSampler) (name : List Char) (bound : Nat) :
    ProbabilisticCategorizerSampler :=
  let s : ProbabilisticCategorizerSampler :=
    { s with samplingBoundaries := s.samplingBoundaries ++ [(name, bound)] }
  if name = defaultName then { s with defaultSamplingBoundary := bound } else s

/-- The constructor `ProbabilisticCategorizerSampler(samplingRates)`. The floating-point
`computeSamplingBoundary` is a parameter, over any type `ρ` of rates. -/
def ProbabilisticCategorizerSampler.new {ρ : Type} (computeSamplingBoundary : ρ → Nat)
    (samplingRates : List (List Char × ρ)) : ProbabilisticCategorizerSampler :=
  samplingRates.foldl
    (fun s sr => addSamplingRate s sr.1 (computeSamplingBoundary sr.2))
    { samplingBoundaries := [], defaultSamplingBoundary := 0 }

/-- The call `std::equal(first.begin(), first.end(), operation.begin())`: element-wise comparison
over the length of `first` (the caller has checked that `operation` is long enough). -/
def stdEqual : List Char → List Char → Bool
  | [], _ => true
  | _ :: _, [] => false
  | a :: as, b :: bs => a == b && stdEqual as bs

/-- The loop of `isSampled` over the remaining entries, falling back to `dflt`. -/
def isSampledLoop (dflt : Nat) (id : TraceID) (operation : List Char) :
    List (List Char × Nat) → Bool
  | [] => decide (dflt ≥ id.low)
  | sr :: rest =>
    if sr.1.length ≤ operation.length && stdEqual sr.1 operation then
      decide (sr.2 ≥ id.low)
    else isSampledLoop dflt id operation rest

/-- The member function `isSampled(id, operation)`: the `sampled` verdict of the returned status. -/
def ProbabilisticCategorizerSampler.isSampled (s : ProbabilisticCategorizerSampler)
    (id : TraceID) (operation : List Char) : Bool :=
  isSampledLoop s.defaultSamplingBoundary id operation s.samplingBoundaries

/-- The constant `kMaxRandomNumber = std::numeric_limits<uint64_t>::max()`. -/
def kMaxRandomNumber : Nat := 2 ^ 64 - 1

/-- The function `computeSamplingBoundary(samplingRate)`. The `long double` values are exact
rationals here: the product `samplingRate * maxRandNumber` is taken exactly, without the
rounding to the floating-point format. `static_cast<uint64_t>` drops the fractional part. -/
def computeSamplingBoundary (samplingRate : ℚ) : Nat :=
  let maxRandNumber : ℚ := (kMaxRandomNumber : ℚ)
  let samplingBoundary : ℚ := samplingRate * maxRandNumber
  if samplingBoundary = maxRandNumber then kMaxRandomNumber
  else ⌊samplingBoundary⌋.toNat % 2 ^ 64

/-- The member function `isSampled` as a call on the sampler object: the verdict and the
object after the call. The body assigns no data member. -/
def ProbabilisticCategorizerSampler.isSampledCall (s : ProbabilisticCategorizerSampler)
    (id : TraceID) (operation : List Char) : Bool × ProbabilisticCategorizerSampler :=
  (s.isSampled id operation, s)

/-- The sampler object after a sequence of `isSampled` calls. -/
def ProbabilisticCategorizerSampler.afterCalls (s : ProbabilisticCategorizerSampler)
    (calls : List (TraceID × List Char)) : ProbabilisticCategorizerSampler :=
  calls.foldl (fun s call => (s.isSampledCall call.1 call.2).2) s

/-- The boundary of the first entry of the configuration, in order, whose name is a prefix
of the operation name, if there is one. -/
def firstPrefixBoundary {ρ : Type} (bound : ρ → Nat) (cfg : List (List Char × ρ))
    (operation : List Char) : Option Nat :=
  (cfg.find? (fun e => e.1.isPrefixOf operation)).map (fun e => bound e.2)

/-- The boundary of the entry named `"default"` of the configuration (the first one, should
there be several), and 0 if there is none. -/
def defaultBoundary {ρ : Type} (bound : ρ → Nat) (cfg : List (List Char × ρ)) : Nat :=
  match cfg.find? (fun e => decide (e.1 = defaultName)) with
  | some e => bound e.2
  | none => 0

end samplers

/-! ## Auxiliary definitions used in the statements and proofs -/

/-- One nibble of `writeHexByte`: the digit `d` is appended unless it is a zero that is
still being skipped. -/
def emit (st : List Char × Bool) (d : Nat) : List Char × Bool :=
  if !st.2 || d != 0 then (st.1 ++ [hexChar d], false) else st

/-- The two nibbles of a byte, in the order `writeHexByte` visits them. -/
def byteNibbles (v : Nat) : List Nat := [v % 256 / 16 % 16, v % 256 % 16]

/-- The sixteen nibbles of a 64-bit value, most significant first, as the loop of `writeHex`
visits them. -/
def nibbles (v : Nat) : List Nat :=
  [7, 6, 5, 4, 3, 2, 1, 0].flatMap (fun b => byteNibbles ((v / 2 ^ (b * 8)) % 256))

/-- The value of a digit list, most significant first, continuing from `acc`. -/
def valAcc (acc : Nat) (ds : List Nat) : Nat := ds.foldl (fun a d => a * 16 + d) acc

/-- The digits `writeHex` emits for the nibble list `ds`: all of them, or without the leading
zeros when `skip` is set. -/
def emitted (skip : Bool) (ds : List Nat) : List Nat :=
  if skip then ds.dropWhile (· == 0) else ds

/-- The trace id `extract` decodes from the text `f` that precedes the first `':'`. -/
def traceIDOfField (f : List Char) : TraceID :=
  if f.length > 16 then
    ⟨decodeHex 64 (slice f 0 (f.length - 16)), decodeHex 64 (slice f (f.length - 16) f.length)⟩
  else ⟨0, decodeHex 64 f⟩

/-- The canonical lowercase hexadecimal numeral of `n`: the digits of `n` in base 16 without
leading zeros, and `"0"` for 0. -/
def hexNumeral (n : Nat) : List Char := Nat.toDigits 16 n

/-- The hexadecimal numeral of `n` zero-padded on the left to 16 digits. -/
def hexPadded16 (n : Nat) : List Char := List.leftpad 16 '0' (hexNumeral n)

/-- The base-16 value of a text of hexadecimal digits, most significant digit first. -/
def hexValue (s : List Char) : Nat := s.foldl (fun a ch => a * 16 + (hexDigit? ch).getD 0) 0

/-- The characters of a text strictly between its first and its second `':'` (to the end of
the text when there is no second one). -/
def secondField (trace : List Char) : List Char :=
  ((trace.dropWhile (· != ':')).drop 1).takeWhile (· != ':')

end jaegertracing

namespace jaegertracing

/-! ## The hex writer, nibble by nibble -/

theorem writeHexByte_eq_emit (str : List Char) (v : Nat) (skip : Bool) :
    writeHexByte str v skip = (byteNibbles v).foldl emit (str, skip) := by
  cases skip <;> simp [writeHexByte, emit, byteNibbles]

theorem foldl_emit (ds : List Nat) (str : List Char) (skip : Bool) :
    ds.foldl emit (str, skip) =
      (str ++ (emitted skip ds).map hexChar, skip && ds.all (· == 0)) := by
  induction ds generalizing str skip with
  | nil => cases skip <;> simp [emitted]
  | cons d ds ih =>
    rw [List.foldl_cons]
    cases skip
    · simp [emit, ih, emitted]
    · by_cases hd : d = 0
      · subst hd
        simp [emit, ih, emitted]
      · simp [emit, ih, emitted, hd]

theorem foldl_writeHexByte (g : Nat → Nat) (bs : List Nat) (st : List Char × Bool) :
    bs.foldl (fun (acc : List Char × Bool) (b : Nat) => writeHexByte acc.1 (g b) acc.2) st =
      (bs.flatMap (fun b => byteNibbles (g b))).foldl emit st := by
  induction bs generalizing st with
  | nil => rfl
  | cons b bs ih =>
    rw [List.foldl_cons, ih, List.flatMap_cons, List.foldl_append, writeHexByte_eq_emit]

theorem writeHex_eq (str : List Char) (v : Nat) (skip notEmpty : Bool) :
    writeHex str v skip notEmpty =
      str ++ ((emitted skip (nibbles v)).map hexChar ++
        if (skip && (nibbles v).all (· == 0)) && notEmpty then ['0'] else []) := by
  unfold writeHex
  rw [foldl_writeHexByte (fun b => (v / 2 ^ (b * 8)) % 256)]
  change (if ((nibbles v).foldl emit (str, skip)).2 && notEmpty
    then ((nibbles v).foldl emit (str, skip)).1 ++ ['0']
    else ((nibbles v).foldl emit (str, skip)).1) = _
  rw [foldl_emit]
  split <;> simp_all

theorem nibbles_lt (v : Nat) : ∀ d ∈ nibbles v, d < 16 := by
  intro d hd
  simp only [nibbles, List.mem_flatMap, byteNibbles] at hd
  obtain ⟨b, _, hb⟩ := hd
  simp only [List.mem_cons, List.mem_singleton, List.not_mem_nil, or_false] at hb
  omega

theorem nibbles_length (v : Nat) : (nibbles v).length = 16 := by
  simp [nibbles, byteNibbles]

theorem valAcc_byteNibbles (acc B : Nat) :
    valAcc acc (byteNibbles B) = acc * 256 + B % 256 := by
  simp only [valAcc, byteNibbles, List.foldl_cons, List.foldl_nil]
  omega

theorem valAcc_append (acc : Nat) (xs ys : List Nat) :
    valAcc acc (xs ++ ys) = valAcc (valAcc acc xs) ys := by
  simp [valAcc, List.foldl_append]

theorem valAcc_nibbles (v : Nat) : valAcc 0 (nibbles v) = v % 2 ^ 64 := by
  simp only [nibbles, List.flatMap_cons, List.flatMap_nil, valAcc_append, valAcc_byteNibbles]
  simp only [valAcc, List.foldl_nil]
  norm_num
  omega

theorem valAcc_dropWhile (ds : List Nat) :
    valAcc 0 (ds.dropWhile (· == 0)) = valAcc 0 ds := by
  induction ds with
  | nil => rfl
  | cons d ds ih =>
    by_cases hd : d = 0
    · subst hd
      simpa [List.dropWhile_cons, valAcc] using ih
    · simp [List.dropWhile_cons, hd]

theorem hexDigit?_hexChar : ∀ d, d < 16 → hexDigit? (hexChar d) = some d := by decide

theorem hexChar_ne_colon : ∀ d, d < 16 → hexChar d ≠ ':' := by decide

theorem decodeHexAux_map (w acc : Nat) (ds : List Nat) (h : ∀ d ∈ ds, d < 16) :
    decodeHexAux w (acc % 2 ^ w) (ds.map hexChar) = valAcc acc ds % 2 ^ w := by
  induction ds generalizing acc with
  | nil => rfl
  | cons d ds ih =>
    have hd : d < 16 := h d (List.mem_cons_self _ _)
    have hds : ∀ e ∈ ds, e < 16 := fun e he => h e (List.mem_cons_of_mem _ he)
    simp only [List.map_cons, decodeHexAux, hexDigit?_hexChar d hd, valAcc, List.foldl_cons]
    have hmod : (acc % 2 ^ w * 16 + d) % 2 ^ w = (acc * 16 + d) % 2 ^ w := by
      rw [Nat.add_mod, Nat.mul_mod, Nat.mod_mod, ← Nat.mul_mod, ← Nat.add_mod]
    rw [hmod]
    exact ih (acc * 16 + d) hds

theorem decodeHex_map (w : Nat) (ds : List Nat) (h : ∀ d ∈ ds, d < 16) :
    decodeHex w (ds.map hexChar) = valAcc 0 ds % 2 ^ w := by
  have := decodeHexAux_map w 0 ds h
  simpa [decodeHex] using this

/-! ## The fields written by `inject` -/

theorem writeHex_append (str : List Char) (v : Nat) (skip notEmpty : Bool) :
    writeHex str v skip notEmpty = str ++ writeHex [] v skip notEmpty := by
  rw [writeHex_eq, writeHex_eq [] v]
  simp

theorem emitted_lt (skip : Bool) (v : Nat) : ∀ d ∈ emitted skip (nibbles v), d < 16 := by
  intro d hd
  cases skip
  · exact nibbles_lt v d hd
  · have hd2 : d ∈ (nibbles v).dropWhile (· == 0) := hd
    exact nibbles_lt v d ((List.dropWhile_sublist _).subset hd2)

theorem valAcc_emitted (skip : Bool) (ds : List Nat) :
    valAcc 0 (emitted skip ds) = valAcc 0 ds := by
  cases skip
  · rfl
  · exact valAcc_dropWhile ds

theorem colon_not_mem_writeHex (v : Nat) (skip notEmpty : Bool) :
    ':' ∉ writeHex [] v skip notEmpty := by
  rw [writeHex_eq]
  intro h
  simp only [List.nil_append, List.mem_append, List.mem_map] at h
  rcases h with ⟨d, hd, hc⟩ | h
  · exact hexChar_ne_colon d (emitted_lt skip v d hd) hc
  · split at h <;> simp at h

theorem all_zero_of_dropWhile_nil (ds : List Nat) (h : ds.dropWhile (· == 0) = []) :
    ds.all (· == 0) = true := by
  induction ds with
  | nil => rfl
  | cons d ds ih =>
    by_cases hd : d = 0
    · subst hd
      simpa [List.dropWhile_cons] using ih (by simpa [List.dropWhile_cons] using h)
    · simp [List.dropWhile_cons, hd] at h

theorem dropWhile_nil_of_all_zero (ds : List Nat) (h : ds.all (· == 0) = true) :
    ds.dropWhile (· == 0) = [] := by
  induction ds with
  | nil => rfl
  | cons d ds ih =>
    simp only [List.all_cons, Bool.and_eq_true, beq_iff_eq] at h
    obtain ⟨hd, hds⟩ := h
    subst hd
    simpa [List.dropWhile_cons] using ih hds

theorem nibbles_all_zero_iff (v : Nat) :
    (nibbles v).all (· == 0) = true ↔ v % 2 ^ 64 = 0 := by
  constructor
  · intro h
    rw [← valAcc_nibbles, ← valAcc_dropWhile, dropWhile_nil_of_all_zero _ h]
    rfl
  · intro h
    have hb : ∀ b ∈ [7, 6, 5, 4, 3, 2, 1, 0], (v / 2 ^ (b * 8)) % 256 = 0 := by
      intro b hb
      simp only [List.mem_cons, List.mem_singleton, List.not_mem_nil, or_false] at hb
      rcases hb with rfl | rfl | rfl | rfl | rfl | rfl | rfl | rfl <;> norm_num at h ⊢ <;> omega
    simp only [nibbles, List.all_flatMap, List.all_eq_true]
    intro b hb'
    rw [hb b hb']
    decide

/-- The text `writeHex` produces for `v` on an empty string with its default arguments. -/
theorem writeHex_default (v : Nat) :
    writeHex [] v true true =
      if v % 2 ^ 64 = 0 then ['0'] else ((nibbles v).dropWhile (· == 0)).map hexChar := by
  rw [writeHex_eq]
  by_cases h : v % 2 ^ 64 = 0
  · have h0 := (nibbles_all_zero_iff v).2 h
    rw [if_pos h]
    simp [emitted, h0, dropWhile_nil_of_all_zero _ h0]
  · have h0 : (nibbles v).all (· == 0) = false := by
      rw [← Bool.not_eq_true, nibbles_all_zero_iff]
      exact h
    rw [if_neg h]
    simp [emitted, h0]

theorem decodeHex_writeHex (v : Nat) (skip notEmpty : Bool) :
    decodeHex 64 (writeHex [] v skip notEmpty) = v % 2 ^ 64 := by
  rw [writeHex_eq]
  by_cases h0 : ((skip && (nibbles v).all (· == 0)) && notEmpty) = true
  · simp only [Bool.and_eq_true] at h0
    obtain ⟨⟨hs, hz⟩, hn⟩ := h0
    subst hs hn
    simp only [hz, emitted, dropWhile_nil_of_all_zero _ hz, if_true, Bool.and_self,
      List.map_nil, List.nil_append]
    rw [(nibbles_all_zero_iff v).1 hz]
    decide
  · simp only [h0, List.nil_append, List.append_nil, if_false, Bool.false_eq_true]
    rw [decodeHex_map 64 _ (emitted_lt skip v), valAcc_emitted, valAcc_nibbles, Nat.mod_mod]

theorem length_writeHex_noskip (v : Nat) (notEmpty : Bool) :
    (writeHex [] v false notEmpty).length = 16 := by
  rw [writeHex_eq]
  simp [emitted, nibbles_length]

theorem writeHex_high_ne_nil (v : Nat) (hv : v % 2 ^ 64 ≠ 0) :
    writeHex [] v true false ≠ [] := by
  rw [writeHex_eq]
  intro h
  simp only [List.nil_append, Bool.and_false, Bool.false_eq_true, if_false, List.append_nil,
    List.map_eq_nil_iff, emitted, if_true] at h
  exact hv ((nibbles_all_zero_iff v).1 (all_zero_of_dropWhile_nil _ h))

/-- The flags field: what `writeHexByte` appends for the flags byte. -/
theorem writeHexByte_flags (str : List Char) (v : Nat) :
    (writeHexByte str v true).1 = str ++ ((byteNibbles v).dropWhile (· == 0)).map hexChar := by
  rw [writeHexByte_eq_emit, foldl_emit]
  simp [emitted]

theorem byteNibbles_lt (v : Nat) : ∀ d ∈ byteNibbles v, d < 16 := by
  intro d hd
  simp only [byteNibbles, List.mem_cons, List.mem_singleton, List.not_mem_nil, or_false] at hd
  omega

theorem decodeHex_flags (v : Nat) :
    decodeHex 64 (((byteNibbles v).dropWhile (· == 0)).map hexChar) = v % 256 := by
  rw [decodeHex_map 64 _ (fun d hd => byteNibbles_lt v d ((List.dropWhile_sublist _).subset hd)),
    valAcc_dropWhile, valAcc_byteNibbles]
  omega

/-! ## Searching and slicing -/

theorem findFrom_append (c : Char) (f rest : List Char) (i : Nat) (h : c ∉ f) :
    findFrom c (f ++ c :: rest) i = some (i + f.length) := by
  induction f generalizing i with
  | nil => simp [findFrom]
  | cons x f ih =>
    have hx : x ≠ c := fun e => h (e ▸ List.mem_cons_self _ _)
    have hf : c ∉ f := fun e => h (List.mem_cons_of_mem _ e)
    rw [List.cons_append, findFrom, if_neg hx, ih (i + 1) hf, List.length_cons]
    exact congrArg some (by omega)

theorem findFrom_eq_none (c : Char) (s : List Char) (i : Nat) :
    findFrom c s i = none ↔ c ∉ s := by
  induction s generalizing i with
  | nil => simp [findFrom]
  | cons x s ih =>
    by_cases hx : x = c
    · simp [findFrom, hx]
    · have hx2 : ¬ c = x := fun e => hx e.symm
      simp [findFrom, hx, hx2, ih]

theorem findFrom_eq_some (c : Char) (s : List Char) (i p : Nat) (h : findFrom c s i = some p) :
    ∃ f rest, s = f ++ c :: rest ∧ c ∉ f ∧ p = i + f.length := by
  induction s generalizing i with
  | nil => simp [findFrom] at h
  | cons x s ih =>
    by_cases hx : x = c
    · subst hx
      simp only [findFrom, if_true, Option.some.injEq] at h
      exact ⟨[], s, rfl, by simp, by simp [h]⟩
    · simp only [findFrom, hx, if_false] at h
      obtain ⟨f, rest, hs, hf, hp⟩ := ih (i + 1) h
      refine ⟨x :: f, rest, by simp [hs], ?_, by simp [hp]; omega⟩
      intro hmem
      rcases List.mem_cons.1 hmem with e | e
      · exact hx e.symm
      · exact hf e

theorem find_first_of_drop (s : List Char) (c : Char) (pos : Nat) (f rest : List Char)
    (hs : s.drop pos = f ++ c :: rest) (h : c ∉ f) :
    find_first_of s c pos = some (pos + f.length) := by
  rw [find_first_of, hs, findFrom_append c f rest pos h]

theorem drop_succ_of_drop (s : List Char) (pos : Nat) (f : List Char) (c : Char)
    (rest : List Char) (hs : s.drop pos = f ++ c :: rest) :
    s.drop (pos + f.length + 1) = rest := by
  have h : s.drop (pos + f.length + 1) = (s.drop pos).drop (f.length + 1) := by
    rw [List.drop_drop]
    exact congrArg (fun n => s.drop n) (by omega)
  rw [h, hs]
  simp

theorem slice_of_drop (s : List Char) (a : Nat) (f rest : List Char)
    (hs : s.drop a = f ++ rest) : slice s a (a + f.length) = f := by
  simp [slice, hs]

theorem slice_sub_of_drop (s : List Char) (f rest : List Char) (a b : Nat)
    (hs : s = f ++ rest) (hb : b ≤ f.length) : slice s a b = slice f a b := by
  subst hs
  unfold slice
  by_cases ha : a ≤ f.length
  · rw [List.drop_append_of_le_length ha, List.take_append_of_le_length]
    simp only [List.length_drop]
    omega
  · have h0 : b - a = 0 := by omega
    simp [h0]

theorem slice_to_length (s : List Char) (a : Nat) : slice s a s.length = s.drop a := by
  unfold slice
  rw [List.take_of_length_le]
  simp

/-- On a text with three `':'`-terminated fields `f1`, `f2`, `f3` followed by `f4`, `extract`
succeeds and decodes each field. -/
theorem extract_fields (self : SpanContext) (f1 f2 f3 f4 : List Char)
    (h1 : ':' ∉ f1) (h2 : ':' ∉ f2) (h3 : ':' ∉ f3) :
    self.extract (f1 ++ ':' :: (f2 ++ ':' :: (f3 ++ ':' :: f4))) =
      (true, { traceID := traceIDOfField f1, spanID := decodeHex 64 f2,
               parentID := decodeHex 64 f3, flags := decodeHex 64 f4 % 256 }) := by
  generalize htr : f1 ++ ':' :: (f2 ++ ':' :: (f3 ++ ':' :: f4)) = trace
  have d0 : trace.drop 0 = f1 ++ ':' :: (f2 ++ ':' :: (f3 ++ ':' :: f4)) := by simp [htr]
  have d1 := drop_succ_of_drop trace 0 f1 ':' _ d0
  have d2 := drop_succ_of_drop trace _ f2 ':' _ d1
  have d3 := drop_succ_of_drop trace _ f3 ':' _ d2
  have p1 := find_first_of_drop trace ':' 0 f1 _ d0 h1
  have p2 := find_first_of_drop trace ':' _ f2 _ d1 h2
  have p3 := find_first_of_drop trace ':' _ f3 _ d2 h3
  have s2 := slice_of_drop trace _ f2 _ d1
  have s3 := slice_of_drop trace _ f3 _ d2
  have s4 : slice trace (0 + f1.length + 1 + f2.length + 1 + f3.length + 1) trace.length = f4 := by
    rw [slice_to_length, d3]
  have sa : ∀ a b, b ≤ f1.length → slice trace a b = slice f1 a b :=
    fun a b hb => slice_sub_of_drop trace f1 _ a b htr.symm hb
  have sf : slice f1 0 f1.length = f1 := by simp [slice]
  simp only [Nat.zero_add] at p1 p2 p3 s2 s3 s4
  unfold SpanContext.extract
  simp only [p1, p2, p3, s2, s3, s4]
  by_cases hl : f1.length > 16
  · simp only [hl, if_true, traceIDOfField, sa _ _ (Nat.sub_le _ _), sa _ _ (Nat.le_refl _)]
  · simp only [hl, if_false, traceIDOfField, sa _ _ (Nat.le_refl _), sf]

/-- The trace-id field `inject` writes. -/
theorem inject_eq (c : SpanContext) :
    c.inject =
      (if c.traceID.high != 0 then
          writeHex [] c.traceID.high true false ++ writeHex [] c.traceID.low false true
        else writeHex [] c.traceID.low true true) ++
      ':' :: (writeHex [] c.spanID true true ++
      ':' :: (writeHex [] c.parentID true true ++
      ':' :: ((byteNibbles c.flags).dropWhile (· == 0)).map hexChar)) := by
  unfold SpanContext.inject
  simp only [writeHexByte_flags]
  rw [writeHex_append _ c.parentID, writeHex_append _ c.spanID]
  split
  · rw [writeHex_append _ c.traceID.low]
    simp
  · simp

/-- C1. Round trip with a 64-bit trace id: for a span context `c` whose fields fit their
types and whose `traceID.high` is 0, `extract` applied (on any context) to the text
`inject` produces for `c` reports success and leaves exactly `c`; and `low = 255`,
`spanID = 1`, `parentID = 0`, `flags = 1` encodes to `"ff:1:0:1"`. -/
theorem extract_inject_roundtrip_64 (c self : SpanContext) (hwf : c.WF)
    (hhigh : c.traceID.high = 0) :
    self.extract c.inject = (true, c) ∧
      SpanContext.inject ⟨⟨0, 255⟩, 1, 0, 1⟩ = "ff:1:0:1".toList := by
  refine ⟨?_, by decide⟩
  obtain ⟨⟨high, low⟩, spanID, parentID, flags⟩ := c
  obtain ⟨⟨_, hlow⟩, hspan, hparent, hflags⟩ := hwf
  simp only at hhigh hlow hspan hparent hflags
  subst hhigh
  rw [inject_eq]
  simp only [bne_self_eq_false, Bool.false_eq_true, if_false]
  rw [extract_fields self _ _ _ _ (colon_not_mem_writeHex _ _ _) (colon_not_mem_writeHex _ _ _)
    (colon_not_mem_writeHex _ _ _)]
  have hlen : ¬ (writeHex [] low true true).length > 16 := by
    rw [writeHex_eq]
    have := (List.dropWhile_sublist (· == 0) (l := nibbles low)).length_le
    rw [nibbles_length] at this
    simp only [emitted, if_true, List.nil_append, List.length_append, List.length_map]
    split
    · rename_i hz
      simp only [Bool.and_true, Bool.true_and] at hz
      simp [dropWhile_nil_of_all_zero _ hz]
    · simp only [List.length_nil]
      omega
  simp only [traceIDOfField, hlen, if_false, decodeHex_writeHex, decodeHex_flags,
    Nat.mod_eq_of_lt hlow, Nat.mod_eq_of_lt hspan, Nat.mod_eq_of_lt hparent,
    Nat.mod_eq_of_lt hflags]

/-- Witness of C1 at `low = 255`, `spanID = 1`, `parentID = 0`, `flags = 1`. -/
theorem extract_inject_roundtrip_64_witness :
    SpanContext.WF ⟨⟨0, 255⟩, 1, 0, 1⟩ ∧
      SpanContext.extract SpanContext.default (SpanContext.inject ⟨⟨0, 255⟩, 1, 0, 1⟩) =
        (true, ⟨⟨0, 255⟩, 1, 0, 1⟩) :=
  ⟨by decide,
    (extract_inject_roundtrip_64 ⟨⟨0, 255⟩, 1, 0, 1⟩ SpanContext.default (by decide)
      rfl).1⟩

theorem takeWhile_ne_append (c : Char) (f rest : List Char) (h : c ∉ f) :
    (f ++ c :: rest).takeWhile (· != c) = f := by
  induction f with
  | nil => simp [List.takeWhile_cons]
  | cons x f ih =>
    have hx : x ≠ c := fun e => h (e ▸ List.mem_cons_self _ _)
    have hf : c ∉ f := fun e => h (List.mem_cons_of_mem _ e)
    simp [List.takeWhile_cons, hx, ih hf]

/-- The trace-id field of a 128-bit id: the digits of `high` followed by sixteen digits of
`low`; `extract` splits it back into the two words. -/
theorem traceIDOfField_high_low (high low : Nat) (hh : high % 2 ^ 64 ≠ 0) :
    let field := writeHex [] high true false ++ writeHex [] low false true
    16 < field.length ∧ ':' ∉ field ∧
      field.take (field.length - 16) = writeHex [] high true false ∧
      field.drop (field.length - 16) = writeHex [] low false true ∧
      traceIDOfField field = ⟨high % 2 ^ 64, low % 2 ^ 64⟩ := by
  intro field
  have hL : (writeHex [] low false true).length = 16 := length_writeHex_noskip low true
  have hH : 0 < (writeHex [] high true false).length :=
    List.length_pos.2 (writeHex_high_ne_nil high hh)
  have hlen : field.length = (writeHex [] high true false).length + 16 := by
    simp [field, hL]
  have hsub : field.length - 16 = (writeHex [] high true false).length := by omega
  have htake : field.take (field.length - 16) = writeHex [] high true false := by
    rw [hsub]
    simp [field]
  have hdrop : field.drop (field.length - 16) = writeHex [] low false true := by
    rw [hsub]
    simp [field]
  refine ⟨by omega, ?_, htake, hdrop, ?_⟩
  · intro hmem
    rcases List.mem_append.1 hmem with h | h
    · exact colon_not_mem_writeHex _ _ _ h
    · exact colon_not_mem_writeHex _ _ _ h
  · have hgt : field.length > 16 := by omega
    have h1 : slice field 0 (field.length - 16) = writeHex [] high true false := by
      simpa [slice] using htake
    have h2 : slice field (field.length - 16) field.length = writeHex [] low false true := by
      rw [slice_to_length]
      exact hdrop
    simp only [traceIDOfField, hgt, if_true, h1, h2, decodeHex_writeHex]

/-- C2. Round trip with a 128-bit trace id: for a span context `c` whose fields fit their
types and whose `traceID.high` is not 0, the trace-id field of `inject c` (the text before the
first `':'`) has more than 16 characters, `extract` applied to `inject c` reports success and
leaves exactly `c`, and `high` is the value of the characters before the last 16 of the
trace-id field and `low` the value of its last 16 characters. -/
theorem extract_inject_roundtrip_128 (c self : SpanContext) (hwf : c.WF)
    (hhigh : c.traceID.high ≠ 0) :
    16 < (c.inject.takeWhile (· != ':')).length ∧
      self.extract c.inject = (true, c) ∧
      decodeHex 64 ((c.inject.takeWhile (· != ':')).take
        ((c.inject.takeWhile (· != ':')).length - 16)) = c.traceID.high ∧
      decodeHex 64 ((c.inject.takeWhile (· != ':')).drop
        ((c.inject.takeWhile (· != ':')).length - 16)) = c.traceID.low := by
  obtain ⟨⟨high, low⟩, spanID, parentID, flags⟩ := c
  obtain ⟨⟨hhi, hlow⟩, hspan, hparent, hflags⟩ := hwf
  simp only at hhigh hhi hlow hspan hparent hflags
  have hh : high % 2 ^ 64 ≠ 0 := by rw [Nat.mod_eq_of_lt hhi]; exact hhigh
  obtain ⟨hlen, hcolon, htake, hdrop, htid⟩ := traceIDOfField_high_low high low hh
  have hb : (high != 0) = true := by simpa using hhigh
  rw [inject_eq]
  simp only [hb, if_true]
  rw [takeWhile_ne_append ':' _ _ hcolon, htake, hdrop,
    extract_fields self _ _ _ _ hcolon (colon_not_mem_writeHex _ _ _)
      (colon_not_mem_writeHex _ _ _)]
  refine ⟨hlen, ?_, ?_, ?_⟩
  · simp only [htid, decodeHex_writeHex, decodeHex_flags, Nat.mod_eq_of_lt hhi,
      Nat.mod_eq_of_lt hlow, Nat.mod_eq_of_lt hspan, Nat.mod_eq_of_lt hparent,
      Nat.mod_eq_of_lt hflags]
  · rw [decodeHex_writeHex, Nat.mod_eq_of_lt hhi]
  · rw [decodeHex_writeHex, Nat.mod_eq_of_lt hlow]

/-- Witness of C2 at `high = 1`, `low = 0`, `spanID = 0`, `parentID = 0`, `flags = 0`. -/
theorem extract_inject_roundtrip_128_witness :
    SpanContext.WF ⟨⟨1, 0⟩, 0, 0, 0⟩ ∧
      SpanContext.extract SpanContext.default (SpanContext.inject ⟨⟨1, 0⟩, 0, 0, 0⟩) =
        (true, ⟨⟨1, 0⟩, 0, 0, 0⟩) :=
  ⟨by decide,
    (extract_inject_roundtrip_128 ⟨⟨1, 0⟩, 0, 0, 0⟩ SpanContext.default (by decide)
      (by decide)).2.1⟩

/-- C3. At `high = 1`, `low = 0`, `spanID = 0`, `parentID = 0`, `flags = 0`, `inject`
produces `"10000000000000000:0:0:"`: the flags field, whose value is 0, is empty, and the
text is not `"10000000000000000:0:0:0"`. The same happens for every context with
`flags = 0`: the text ends with the third `':'`. -/
theorem inject_flags_zero_empty :
    SpanContext.inject ⟨⟨1, 0⟩, 0, 0, 0⟩ = "10000000000000000:0:0:".toList ∧
      SpanContext.inject ⟨⟨1, 0⟩, 0, 0, 0⟩ ≠ "10000000000000000:0:0:0".toList ∧
      ∀ (t : TraceID) (spanID parentID : Nat),
        (SpanContext.inject ⟨t, spanID, parentID, 0⟩).getLast? = some ':' := by
  refine ⟨by decide, by decide, ?_⟩
  intro t spanID parentID
  rw [inject_eq]
  generalize (if t.high != 0 then
      writeHex [] t.high true false ++ writeHex [] t.low false true
    else writeHex [] t.low true true) = f
  have h : f ++ ':' :: (writeHex [] spanID true true ++ ':' ::
      (writeHex [] parentID true true ++
        ':' :: ((byteNibbles 0).dropWhile (· == 0)).map hexChar)) =
      (f ++ ':' :: (writeHex [] spanID true true ++ ':' ::
        writeHex [] parentID true true)) ++ [':'] := by
    simp [byteNibbles]
  exact h ▸ List.getLast?_concat _

end jaegertracing

namespace jaegertracing.samplers

/-! ## The sampler: construction and the scan of `isSampled` -/

theorem stdEqual_eq_isPrefixOf (name operation : List Char) :
    stdEqual name operation = name.isPrefixOf operation := by
  induction name generalizing operation with
  | nil => cases operation <;> simp [stdEqual]
  | cons a as ih =>
    cases operation with
    | nil => simp [stdEqual]
    | cons b bs => simp [stdEqual, ih, List.isPrefixOf]

theorem matches_eq_isPrefixOf (name operation : List Char) :
    (decide (name.length ≤ operation.length) && stdEqual name operation) =
      name.isPrefixOf operation := by
  rw [stdEqual_eq_isPrefixOf]
  by_cases h : name.isPrefixOf operation = true
  · have hle : name.length ≤ operation.length := (List.isPrefixOf_iff_prefix.1 h).length_le
    simp [h, hle]
  · simp [h]

theorem isSampledLoop_eq (dflt : Nat) (id : TraceID) (operation : List Char)
    (tbl : List (List Char × Nat)) :
    isSampledLoop dflt id operation tbl =
      decide (id.low ≤ match tbl.find? (fun sr => sr.1.isPrefixOf operation) with
        | some sr => sr.2
        | none => dflt) := by
  induction tbl with
  | nil => simp [isSampledLoop]
  | cons sr rest ih =>
    rw [isSampledLoop, matches_eq_isPrefixOf, List.find?_cons]
    by_cases h : sr.1.isPrefixOf operation = true
    · simp [h]
    · simp only [h, if_false, Bool.false_eq_true]
      rw [ih]

theorem foldl_addSamplingRate {ρ : Type} (bound : ρ → Nat) (cfg : List (List Char × ρ))
    (s : ProbabilisticCategorizerSampler) :
    cfg.foldl (fun s sr => addSamplingRate s sr.1 (bound sr.2)) s =
      { samplingBoundaries := s.samplingBoundaries ++ cfg.map (fun e => (e.1, bound e.2)),
        defaultSamplingBoundary :=
          cfg.foldl (fun d e => if e.1 = defaultName then bound e.2 else d)
            s.defaultSamplingBoundary } := by
  induction cfg generalizing s with
  | nil => simp
  | cons e cfg ih =>
    rw [List.foldl_cons, ih]
    by_cases h : e.1 = defaultName <;> simp [addSamplingRate, h]

/-- The table the constructor builds holds every entry of the configuration, in order. -/
theorem new_samplingBoundaries {ρ : Type} (bound : ρ → Nat) (cfg : List (List Char × ρ)) :
    (ProbabilisticCategorizerSampler.new bound cfg).samplingBoundaries =
      cfg.map (fun e => (e.1, bound e.2)) := by
  simp [ProbabilisticCategorizerSampler.new, foldl_addSamplingRate]

/-- The fallback boundary the constructor stores: that of the last `"default"` entry. -/
theorem new_defaultSamplingBoundary {ρ : Type} (bound : ρ → Nat)
    (cfg : List (List Char × ρ)) :
    (ProbabilisticCategorizerSampler.new bound cfg).defaultSamplingBoundary =
      cfg.foldl (fun d e => if e.1 = defaultName then bound e.2 else d) 0 := by
  simp [ProbabilisticCategorizerSampler.new, foldl_addSamplingRate]

/-- The verdict of `isSampled` on a constructed sampler. -/
theorem isSampled_new {ρ : Type} (bound : ρ → Nat) (cfg : List (List Char × ρ))
    (id : TraceID) (operation : List Char) :
    (ProbabilisticCategorizerSampler.new bound cfg).isSampled id operation =
      decide (id.low ≤ match firstPrefixBoundary bound cfg operation with
        | some B => B
        | none => cfg.foldl (fun d e => if e.1 = defaultName then bound e.2 else d) 0) := by
  rw [ProbabilisticCategorizerSampler.isSampled, isSampledLoop_eq, new_samplingBoundaries,
    new_defaultSamplingBoundary, firstPrefixBoundary, List.find?_map]
  cases h : cfg.find? (fun e => e.1.isPrefixOf operation) with
  | none =>
    have h2 : List.find? ((fun sr : List Char × Nat => sr.1.isPrefixOf operation) ∘
        fun e : List Char × ρ => (e.1, bound e.2)) cfg = none := h
    simp [h2]
  | some e =>
    have h2 : List.find? ((fun sr : List Char × Nat => sr.1.isPrefixOf operation) ∘
        fun e : List Char × ρ => (e.1, bound e.2)) cfg = some e := h
    simp [h2]

theorem foldl_default_of_last {ρ : Type} (bound : ρ → Nat) (cfg : List (List Char × ρ))
    (d0 : Nat) (hcfg : ∀ e ∈ cfg.dropLast, e.1 ≠ defaultName) :
    cfg.foldl (fun d e => if e.1 = defaultName then bound e.2 else d) d0 =
      match cfg.find? (fun e => decide (e.1 = defaultName)) with
      | some e => bound e.2
      | none => d0 := by
  induction cfg generalizing d0 with
  | nil => rfl
  | cons e rest ih =>
    cases rest with
    | nil => by_cases h : e.1 = defaultName <;> simp [h]
    | cons e2 rest2 =>
      have he : e.1 ≠ defaultName := hcfg e (by simp [List.dropLast])
      have hrest : ∀ x ∈ (e2 :: rest2).dropLast, x.1 ≠ defaultName := by
        intro x hx
        exact hcfg x (by simp only [List.dropLast_cons₂]; exact List.mem_cons_of_mem _ hx)
      rw [List.foldl_cons, if_neg he, ih d0 hrest, List.find?_cons (a := e)]
      simp [he]

theorem eq_getLast_of_default {ρ : Type} (cfg : List (List Char × ρ))
    (hcfg : ∀ e ∈ cfg.dropLast, e.1 ≠ defaultName) (x : List Char × ρ) (hx : x ∈ cfg)
    (hd : x.1 = defaultName) : cfg.getLast? = some x := by
  rcases List.eq_nil_or_concat cfg with h | ⟨init, last, h⟩
  · subst h
    simp at hx
  · subst h
    rw [List.concat_eq_append] at hcfg hx ⊢
    rw [List.dropLast_concat] at hcfg
    rw [List.getLast?_concat]
    rcases List.mem_append.1 hx with hin | hl
    · exact absurd hd (hcfg x hin)
    · simp only [List.mem_singleton] at hl
      rw [hl]

theorem defaultBoundary_eq_of_mem {ρ : Type} (bound : ρ → Nat) (cfg : List (List Char × ρ))
    (hcfg : ∀ e ∈ cfg.dropLast, e.1 ≠ defaultName) (e : List Char × ρ) (hmem : e ∈ cfg)
    (hdef : e.1 = defaultName) : defaultBoundary bound cfg = bound e.2 := by
  have hlast := eq_getLast_of_default cfg hcfg e hmem hdef
  unfold defaultBoundary
  split
  · rename_i e2 hfd
    have hmem2 : e2 ∈ cfg := List.mem_of_find?_eq_some hfd
    have hdef2 : e2.1 = defaultName := by simpa using List.find?_some hfd
    have hlast2 := eq_getLast_of_default cfg hcfg e2 hmem2 hdef2
    rw [hlast] at hlast2
    cases hlast2
    rfl
  · rename_i hfd
    have := List.find?_eq_none.1 hfd e hmem
    simp [hdef] at this

/-- C4. Sampler prefix precedence. For a configuration in which the name `"default"` occurs
only as the last entry, `isSampled` returns `boundary ≥ traceID.low` for the boundary of the
first entry, in configuration order, whose name is a prefix of the operation name, and for the
boundary of the default entry (0 without one) when no entry is a prefix; when no non-default
name is a prefix the boundary is that of the default entry (0 without one). With the
configuration `[("checkout", rateA), ("default", rateB)]` the operation `"checkoutFlow"` is
decided by the boundary of `rateA` and the operation `"other"` by that of `rateB`. -/
theorem isSampled_prefix_precedence {ρ : Type} (bound : ρ → Nat)
    (cfg : List (List Char × ρ)) (hcfg : ∀ e ∈ cfg.dropLast, e.1 ≠ defaultName)
    (id : TraceID) (operation : List Char) :
    ((ProbabilisticCategorizerSampler.new bound cfg).isSampled id operation =
        decide ((match firstPrefixBoundary bound cfg operation with
          | some B => B
          | none => defaultBoundary bound cfg) ≥ id.low)) ∧
      ((∀ e ∈ cfg, e.1 ≠ defaultName → ¬ e.1 <+: operation) →
        (ProbabilisticCategorizerSampler.new bound cfg).isSampled id operation =
          decide (defaultBoundary bound cfg ≥ id.low)) ∧
      (∀ rateA rateB : ρ,
        (ProbabilisticCategorizerSampler.new bound
            [("checkout".toList, rateA), ("default".toList, rateB)]).isSampled id
            "checkoutFlow".toList = decide (bound rateA ≥ id.low) ∧
        (ProbabilisticCategorizerSampler.new bound
            [("checkout".toList, rateA), ("default".toList, rateB)]).isSampled id
            "other".toList = decide (bound rateB ≥ id.low)) := by
  have hfold := foldl_default_of_last bound cfg 0 hcfg
  have hmain : (ProbabilisticCategorizerSampler.new bound cfg).isSampled id operation =
      decide ((match firstPrefixBoundary bound cfg operation with
        | some B => B
        | none => defaultBoundary bound cfg) ≥ id.low) := by
    rw [isSampled_new, hfold]
    rfl
  refine ⟨hmain, ?_, ?_⟩
  · intro hnone
    rw [hmain]
    unfold firstPrefixBoundary
    cases hfind : cfg.find? (fun e => e.1.isPrefixOf operation) with
    | none => rfl
    | some e =>
      have hmem : e ∈ cfg := List.mem_of_find?_eq_some hfind
      have hpre : e.1.isPrefixOf operation = true := by
        simpa using List.find?_some hfind
      have hdef : e.1 = defaultName := by
        by_contra hne
        exact hnone e hmem hne (List.isPrefixOf_iff_prefix.1 hpre)
      rw [defaultBoundary_eq_of_mem bound cfg hcfg e hmem hdef]
      rfl
  · intro rateA rateB
    constructor
    · rw [isSampled_new]
      rfl
    · rw [isSampled_new]
      rfl

/-- Witness of C4 on the configuration `[("checkout", 10), ("default", 3)]`, with boundaries
given directly. -/
theorem isSampled_prefix_precedence_witness :
    (∀ e ∈ List.dropLast
          ([("checkout".toList, 10), ("default".toList, 3)] : List (List Char × Nat)),
        e.1 ≠ defaultName) ∧
      (ProbabilisticCategorizerSampler.new (fun r : Nat => r)
        [("checkout".toList, 10), ("default".toList, 3)]).isSampled ⟨0, 7⟩
        "checkoutFlow".toList = true ∧
      (ProbabilisticCategorizerSampler.new (fun r : Nat => r)
        [("checkout".toList, 10), ("default".toList, 3)]).isSampled ⟨0, 7⟩
        "other".toList = false :=
  ⟨by decide,
   ((isSampled_prefix_precedence (fun r : Nat => r)
      [("checkout".toList, 10), ("default".toList, 3)] (by decide) ⟨0, 7⟩
      "checkoutFlow".toList).1).trans (by decide),
   ((isSampled_prefix_precedence (fun r : Nat => r)
      [("checkout".toList, 10), ("default".toList, 3)] (by decide) ⟨0, 7⟩
      "other".toList).2.1 (by decide)).trans (by decide)⟩

/-- C5. The constructor appends every entry to the table `isSampled` scans, the entries named
`"default"` included. With the configuration `[("default", 0), ("defaultHandler", 2^64 - 1)]`
(boundaries given directly) the table holds both entries, and the operation
`"defaultHandler"` with `traceID.low = 5` is matched by the `"default"` entry and not sampled,
although the first non-default entry that is a prefix of it has the boundary `2^64 - 1`. -/
theorem default_entry_is_scanned_as_a_name :
    (∀ (ρ : Type) (bound : ρ → Nat) (cfg : List (List Char × ρ)),
        (ProbabilisticCategorizerSampler.new bound cfg).samplingBoundaries =
          cfg.map (fun e => (e.1, bound e.2))) ∧
      (ProbabilisticCategorizerSampler.new (fun r : Nat => r)
        [("default".toList, 0), ("defaultHandler".toList, 2 ^ 64 - 1)]).samplingBoundaries =
          [("default".toList, 0), ("defaultHandler".toList, 2 ^ 64 - 1)] ∧
      (ProbabilisticCategorizerSampler.new (fun r : Nat => r)
        [("default".toList, 0), ("defaultHandler".toList, 2 ^ 64 - 1)]).isSampled ⟨0, 5⟩
          "defaultHandler".toList = false ∧
      decide ((2 ^ 64 - 1 : Nat) ≥ (5 : Nat)) = true :=
  ⟨fun _ bound cfg => new_samplingBoundaries bound cfg, by decide, by decide, by decide⟩

/-- C6, as stated, fails: the sampler built from the empty configuration samples the trace
id whose low word is 0. -/
theorem empty_config_samples_low_zero :
    (ProbabilisticCategorizerSampler.new (fun r : Nat => r) []).isSampled ⟨0, 0⟩
      "operation".toList = true := by
  decide

/-- C6, amended. For the sampler built from the empty configuration, `isSampled` returns
`sampled = (traceID.low == 0)` for every trace id and every operation name: never sampled
when the low word is not 0, sampled when it is 0. -/
theorem empty_config_sampled_iff_low_zero {ρ : Type} (bound : ρ → Nat) (id : TraceID)
    (operation : List Char) :
    (ProbabilisticCategorizerSampler.new bound []).isSampled id operation =
      decide (id.low = 0) := by
  simp [ProbabilisticCategorizerSampler.new, ProbabilisticCategorizerSampler.isSampled,
    isSampledLoop]

end jaegertracing.samplers

namespace jaegertracing

/-! ## `extract` on an arbitrary text -/

theorem find_first_of_none (s : List Char) (c : Char) (pos : Nat) (h : c ∉ s.drop pos) :
    find_first_of s c pos = none := by
  rw [find_first_of, findFrom_eq_none]
  exact h

theorem split_at_first (c : Char) (s : List Char) :
    c ∉ s ∨ ∃ f r, s = f ++ c :: r ∧ c ∉ f := by
  cases h : findFrom c s 0 with
  | none => exact Or.inl ((findFrom_eq_none c s 0).1 h)
  | some p =>
    obtain ⟨f, r, hs, hf, _⟩ := findFrom_eq_some c s 0 p h
    exact Or.inr ⟨f, r, hs, hf⟩

theorem count_split (c : Char) (f r : List Char) (h : c ∉ f) :
    (f ++ c :: r).count c = r.count c + 1 := by
  rw [List.count_append, List.count_eq_zero_of_not_mem h, List.count_cons_self]
  omega

theorem dropWhile_ne_append (c : Char) (f rest : List Char) (h : c ∉ f) :
    (f ++ c :: rest).dropWhile (· != c) = c :: rest := by
  induction f with
  | nil => simp [List.dropWhile_cons]
  | cons x f ih =>
    have hx : x ≠ c := fun e => h (e ▸ List.mem_cons_self _ _)
    have hf : c ∉ f := fun e => h (List.mem_cons_of_mem _ e)
    simp [List.dropWhile_cons, hx, ih hf]

theorem takeWhile_ne_of_not_mem (c : Char) (f : List Char) (h : c ∉ f) :
    f.takeWhile (· != c) = f := by
  rw [List.takeWhile_eq_self_iff]
  intro x hx
  have : x ≠ c := fun e => h (e ▸ hx)
  simpa using this

theorem extract_no_colon (self : SpanContext) (trace : List Char) (h : ':' ∉ trace) :
    self.extract trace = (false, self) := by
  have p1 := find_first_of_none trace ':' 0 (by simpa using h)
  unfold SpanContext.extract
  simp only [p1]

theorem extract_one_colon (self : SpanContext) (f1 r1 : List Char)
    (h1 : ':' ∉ f1) (hr : ':' ∉ r1) :
    self.extract (f1 ++ ':' :: r1) = (false, { self with traceID := traceIDOfField f1 }) := by
  generalize htr : f1 ++ ':' :: r1 = trace
  have d0 : trace.drop 0 = f1 ++ ':' :: r1 := by simp [htr]
  have d1 := drop_succ_of_drop trace 0 f1 ':' _ d0
  have p1 := find_first_of_drop trace ':' 0 f1 _ d0 h1
  have p2 := find_first_of_none trace ':' (0 + f1.length + 1) (by rw [d1]; exact hr)
  have sa : ∀ a b, b ≤ f1.length → slice trace a b = slice f1 a b :=
    fun a b hb => slice_sub_of_drop trace f1 _ a b htr.symm hb
  have sf : slice f1 0 f1.length = f1 := by simp [slice]
  simp only [Nat.zero_add] at p1 p2
  unfold SpanContext.extract
  simp only [p1, p2]
  by_cases hl : f1.length > 16
  · simp only [hl, if_true, traceIDOfField, sa _ _ (Nat.sub_le _ _), sa _ _ (Nat.le_refl _)]
  · simp only [hl, if_false, traceIDOfField, sa _ _ (Nat.le_refl _), sf]

theorem extract_two_colons (self : SpanContext) (f1 f2 r2 : List Char)
    (h1 : ':' ∉ f1) (h2 : ':' ∉ f2) (hr : ':' ∉ r2) :
    self.extract (f1 ++ ':' :: (f2 ++ ':' :: r2)) =
      (false, { self with traceID := traceIDOfField f1, spanID := decodeHex 64 f2 }) := by
  generalize htr : f1 ++ ':' :: (f2 ++ ':' :: r2) = trace
  have d0 : trace.drop 0 = f1 ++ ':' :: (f2 ++ ':' :: r2) := by simp [htr]
  have d1 := drop_succ_of_drop trace 0 f1 ':' _ d0
  have d2 := drop_succ_of_drop trace _ f2 ':' _ d1
  have p1 := find_first_of_drop trace ':' 0 f1 _ d0 h1
  have p2 := find_first_of_drop trace ':' _ f2 _ d1 h2
  have p3 := find_first_of_none trace ':' (0 + f1.length + 1 + f2.length + 1)
    (by rw [d2]; exact hr)
  have s2 := slice_of_drop trace _ f2 _ d1
  have sa : ∀ a b, b ≤ f1.length → slice trace a b = slice f1 a b :=
    fun a b hb => slice_sub_of_drop trace f1 _ a b htr.symm hb
  have sf : slice f1 0 f1.length = f1 := by simp [slice]
  simp only [Nat.zero_add] at p1 p2 p3 s2
  unfold SpanContext.extract
  simp only [p1, p2, p3, s2]
  by_cases hl : f1.length > 16
  · simp only [hl, if_true, traceIDOfField, sa _ _ (Nat.sub_le _ _), sa _ _ (Nat.le_refl _)]
  · simp only [hl, if_false, traceIDOfField, sa _ _ (Nat.le_refl _), sf]

/-- The shape of a text by its number of `':'` characters, as `extract` sees it. -/
theorem extract_shape (trace : List Char) :
    (':' ∉ trace ∧ trace.count ':' = 0) ∨
    (∃ f1 r1, trace = f1 ++ ':' :: r1 ∧ ':' ∉ f1 ∧ ':' ∉ r1 ∧ trace.count ':' = 1) ∨
    (∃ f1 f2 r2, trace = f1 ++ ':' :: (f2 ++ ':' :: r2) ∧ ':' ∉ f1 ∧ ':' ∉ f2 ∧
      ':' ∉ r2 ∧ trace.count ':' = 2) ∨
    (∃ f1 f2 f3 f4, trace = f1 ++ ':' :: (f2 ++ ':' :: (f3 ++ ':' :: f4)) ∧
      ':' ∉ f1 ∧ ':' ∉ f2 ∧ ':' ∉ f3 ∧ 3 ≤ trace.count ':') := by
  rcases split_at_first ':' trace with h | ⟨f1, r1, rfl, h1⟩
  · exact Or.inl ⟨h, List.count_eq_zero_of_not_mem h⟩
  rcases split_at_first ':' r1 with h | ⟨f2, r2, rfl, h2⟩
  · refine Or.inr (Or.inl ⟨f1, r1, rfl, h1, h, ?_⟩)
    rw [count_split _ _ _ h1, List.count_eq_zero_of_not_mem h]
  rcases split_at_first ':' r2 with h | ⟨f3, f4, rfl, h3⟩
  · refine Or.inr (Or.inr (Or.inl ⟨f1, f2, r2, rfl, h1, h2, h, ?_⟩))
    rw [count_split _ _ _ h1, count_split _ _ _ h2, List.count_eq_zero_of_not_mem h]
  · refine Or.inr (Or.inr (Or.inr ⟨f1, f2, f3, f4, rfl, h1, h2, h3, ?_⟩))
    rw [count_split _ _ _ h1, count_split _ _ _ h2, count_split _ _ _ h3]
    omega

/-- C7. Malformed rejection: on every text with fewer than three `':'` characters, `extract`
returns `false`, whatever context it is called on. -/
theorem extract_rejects_fewer_than_three_colons (self : SpanContext) (trace : List Char)
    (h : trace.count ':' < 3) : (self.extract trace).1 = false := by
  rcases extract_shape trace with ⟨h0, _⟩ | ⟨f1, r1, rfl, h1, hr, _⟩ |
    ⟨f1, f2, r2, rfl, h1, h2, hr, _⟩ | ⟨f1, f2, f3, f4, rfl, _, _, _, hc⟩
  · rw [extract_no_colon self trace h0]
  · rw [extract_one_colon self f1 r1 h1 hr]
  · rw [extract_two_colons self f1 f2 r2 h1 h2 hr]
  · omega

/-- Witness of C7 on the texts `"ff:1:2"` (two `':'`), `"ff:1"` (one) and `"ff"` (none). -/
theorem extract_rejects_fewer_than_three_colons_witness :
    "ff:1:2".toList.count ':' < 3 ∧
      (SpanContext.default.extract "ff:1:2".toList).1 = false ∧
      (SpanContext.default.extract "ff:1".toList).1 = false ∧
      (SpanContext.default.extract "ff".toList).1 = false :=
  ⟨by decide,
    extract_rejects_fewer_than_three_colons SpanContext.default "ff:1:2".toList (by decide),
    extract_rejects_fewer_than_three_colons SpanContext.default "ff:1".toList (by decide),
    extract_rejects_fewer_than_three_colons SpanContext.default "ff".toList (by decide)⟩

theorem secondField_split (f1 f2 r2 : List Char) (h1 : ':' ∉ f1) (h2 : ':' ∉ f2) :
    secondField (f1 ++ ':' :: (f2 ++ ':' :: r2)) = f2 := by
  unfold secondField
  rw [dropWhile_ne_append ':' f1 _ h1, List.drop_one, List.tail_cons,
    takeWhile_ne_append ':' f2 r2 h2]

/-- C8, as stated, fails: on the default context, the failing texts `"ff:1"` and `"ff:1:2"`
leave a trace id of `(0, 255)` (and, for the second, a span id of 1) behind, so the context
after the failed call is not the default context. -/
theorem extract_failure_overwrites_fields :
    SpanContext.default.extract "ff:1".toList = (false, ⟨⟨0, 255⟩, 0, 0, 0⟩) ∧
      SpanContext.default.extract "ff:1:2".toList = (false, ⟨⟨0, 255⟩, 1, 0, 0⟩) ∧
      (SpanContext.default.extract "ff:1".toList).2 ≠ SpanContext.default ∧
      (SpanContext.default.extract "ff:1:2".toList).2 ≠ SpanContext.default := by
  decide

/-- C8, amended. When `extract` reports failure, `parentID` and `flags` are those the context
had before the call, and a text without any `':'` leaves the whole context as it was; the
trace id has been overwritten with the decoded text before the first `':'` as soon as the text
has one, and the span id with the decoded text between the two `':'` when the text has
two. -/
theorem extract_failure_state (self : SpanContext) (trace : List Char)
    (hfail : (self.extract trace).1 = false) :
    (self.extract trace).2.parentID = self.parentID ∧
      (self.extract trace).2.flags = self.flags ∧
      (':' ∉ trace → (self.extract trace).2 = self) ∧
      (self.extract trace).2.traceID =
        (if ':' ∈ trace then traceIDOfField (trace.takeWhile (· != ':')) else self.traceID) ∧
      (self.extract trace).2.spanID =
        (if trace.count ':' = 2 then decodeHex 64 (secondField trace) else self.spanID) := by
  rcases extract_shape trace with ⟨h0, hc⟩ | ⟨f1, r1, rfl, h1, hr, hc⟩ |
    ⟨f1, f2, r2, rfl, h1, h2, hr, hc⟩ | ⟨f1, f2, f3, f4, rfl, h1, h2, h3, _⟩
  · rw [extract_no_colon self trace h0]
    simp [h0, hc]
  · rw [extract_one_colon self f1 r1 h1 hr, takeWhile_ne_append ':' f1 r1 h1]
    simp [hc]
  · rw [extract_two_colons self f1 f2 r2 h1 h2 hr, takeWhile_ne_append ':' f1 _ h1,
      secondField_split f1 f2 r2 h1 h2]
    simp [hc]
  · rw [extract_fields self f1 f2 f3 f4 h1 h2 h3] at hfail
    exact absurd hfail (by simp)

/-- Witness of C8 (amended) on the text `"ff:1:2"` and the context
`{traceID = (3, 4), spanID = 5, parentID = 6, flags = 7}`. -/
theorem extract_failure_state_witness :
    (SpanContext.extract ⟨⟨3, 4⟩, 5, 6, 7⟩ "ff:1:2".toList).1 = false ∧
      (SpanContext.extract ⟨⟨3, 4⟩, 5, 6, 7⟩ "ff:1:2".toList).2.parentID = 6 ∧
      (SpanContext.extract ⟨⟨3, 4⟩, 5, 6, 7⟩ "ff:1:2".toList).2.flags = 7 :=
  ⟨by decide,
    (extract_failure_state ⟨⟨3, 4⟩, 5, 6, 7⟩ "ff:1:2".toList (by decide)).1,
    (extract_failure_state ⟨⟨3, 4⟩, 5, 6, 7⟩ "ff:1:2".toList (by decide)).2.1⟩

/-- C9, as stated, fails: `"zz:1:0:1"` has three `':'` and a trace-id field that is not
hexadecimal (`'z'` is no hex digit), `"1:2:3:4:5"` has a `':'` inside its flags field, and
`extract` returns `true` on both. -/
theorem extract_accepts_non_hex_fields :
    hexDigit? 'z' = none ∧ hexDigit? ':' = none ∧
      (SpanContext.default.extract "zz:1:0:1".toList).1 = true ∧
      (SpanContext.default.extract "1:2:3:4:5".toList).1 = true := by
  decide

/-- C9, amended. On every text with at least three `':'` characters `extract` returns `true`,
whatever the characters of its fields are: no check of the fields is made. -/
theorem extract_accepts_three_colons (self : SpanContext) (trace : List Char)
    (h : 3 ≤ trace.count ':') : (self.extract trace).1 = true := by
  rcases extract_shape trace with ⟨_, hc⟩ | ⟨f1, r1, rfl, _, _, hc⟩ |
    ⟨f1, f2, r2, rfl, _, _, _, hc⟩ | ⟨f1, f2, f3, f4, rfl, h1, h2, h3, _⟩
  · omega
  · omega
  · omega
  · rw [extract_fields self f1 f2 f3 f4 h1 h2 h3]

/-- Witness of C9 (amended) on the text `"zz:1:0:1"`. -/
theorem extract_accepts_three_colons_witness :
    3 ≤ "zz:1:0:1".toList.count ':' ∧
      (SpanContext.default.extract "zz:1:0:1".toList).1 = true :=
  ⟨by decide, extract_accepts_three_colons SpanContext.default "zz:1:0:1".toList (by decide)⟩

/-! ## `fromStream` -/

/-- C10. `fromStream` never returns a partially filled context: whatever the trace-id reader
and `readSegment` do and whatever the input is, if the trace-id reader yields an invalid id, or
one of the three expected `':'` is not the next character, or one of the span-id, parent-id and
flags segments reads as empty, the returned context is the default-constructed one. -/
theorem fromStream_violation_default (readTraceID : IStream → TraceID × IStream)
    (readSegment : IStream → Nat → Char → List Char × IStream) (inp : IStream)
    (h : fromStreamViolation readTraceID readSegment inp) :
    (SpanContext.fromStream readTraceID readSegment inp).1 = SpanContext.default := by
  unfold fromStreamViolation at h
  unfold SpanContext.fromStream
  simp only [List.isEmpty_iff] at *
  split_ifs <;> first | rfl | skip
  simp_all

/-- Witness of C10: a trace-id reader that takes the two characters `"ff"` as the id
`(0, 255)`, a segment reader that reads up to the cap until `':'`, and the input `"ff:1:2"`,
where the third `':'` is missing after the span id 1 and the parent id 2 have been read. -/
theorem fromStream_violation_default_witness :
    fromStreamViolation
        (fun s => (⟨0, 255⟩, { s with chars := s.chars.drop 2 }))
        (fun s n d => ((s.chars.takeWhile (· != d)).take n,
          { s with chars := s.chars.dropWhile (· != d) }))
        ⟨"ff:1:2".toList, true⟩ ∧
      (SpanContext.fromStream
        (fun s => (⟨0, 255⟩, { s with chars := s.chars.drop 2 }))
        (fun s n d => ((s.chars.takeWhile (· != d)).take n,
          { s with chars := s.chars.dropWhile (· != d) }))
        ⟨"ff:1:2".toList, true⟩).1 = SpanContext.default :=
  ⟨by decide,
    fromStream_violation_default
      (fun s => (⟨0, 255⟩, { s with chars := s.chars.drop 2 }))
      (fun s n d => ((s.chars.takeWhile (· != d)).take n,
        { s with chars := s.chars.dropWhile (· != d) }))
      ⟨"ff:1:2".toList, true⟩ (by decide)⟩

end jaegertracing

namespace jaegertracing

/-! ## Canonical numerals -/

theorem digitChar_eq_hexChar : ∀ d, d < 16 → Nat.digitChar d = hexChar d := by decide

theorem valAcc_snoc (acc : Nat) (ds : List Nat) (d : Nat) :
    valAcc acc (ds ++ [d]) = valAcc acc ds * 16 + d := by
  simp [valAcc, List.foldl_append]

theorem valAcc_pos (h : Nat) (t : List Nat) (hh : 0 < h) : 0 < valAcc 0 (h :: t) := by
  induction t using List.reverseRecOn with
  | nil => simpa [valAcc] using hh
  | append_singleton t d ih =>
    rw [← List.cons_append, valAcc_snoc]
    omega

theorem toDigitsCore_valAcc (h : Nat) (t : List Nat) (hh : 0 < h)
    (hlt : ∀ d ∈ h :: t, d < 16) (fuel : Nat) (acc : List Char)
    (hfuel : valAcc 0 (h :: t) < fuel) :
    Nat.toDigitsCore 16 fuel (valAcc 0 (h :: t)) acc = (h :: t).map hexChar ++ acc := by
  induction t using List.reverseRecOn generalizing fuel acc with
  | nil =>
    have h16 : h < 16 := hlt h (List.mem_cons_self _ _)
    have hv : valAcc 0 [h] = h := by simp [valAcc]
    rw [hv] at hfuel ⊢
    obtain ⟨f, rfl⟩ : ∃ f, fuel = f + 1 := ⟨fuel - 1, by omega⟩
    have hdiv : h / 16 = 0 := by omega
    have hmod : h % 16 = h := by omega
    simp [Nat.toDigitsCore, hdiv, hmod, digitChar_eq_hexChar h h16]
  | append_singleton t d ih =>
    have hd : d < 16 := hlt d (by simp)
    have hlt2 : ∀ e ∈ h :: t, e < 16 := fun e he =>
      hlt e (by
        rcases List.mem_cons.1 he with rfl | he
        · simp
        · simp [he])
    have hpos := valAcc_pos h t hh
    rw [← List.cons_append, valAcc_snoc] at hfuel ⊢
    obtain ⟨f, rfl⟩ : ∃ f, fuel = f + 1 := ⟨fuel - 1, by omega⟩
    have hdiv : (valAcc 0 (h :: t) * 16 + d) / 16 = valAcc 0 (h :: t) := by omega
    have hmod : (valAcc 0 (h :: t) * 16 + d) % 16 = d := by omega
    have hne : ¬ valAcc 0 (h :: t) = 0 := by omega
    rw [Nat.toDigitsCore]
    simp only [hdiv, hmod, hne, if_false]
    rw [ih hlt2 f _ (by omega), digitChar_eq_hexChar d hd]
    simp

/-- A digit list without leading zero is the canonical numeral of its value. -/
theorem hexNumeral_valAcc (h : Nat) (t : List Nat) (hh : 0 < h)
    (hlt : ∀ d ∈ h :: t, d < 16) :
    hexNumeral (valAcc 0 (h :: t)) = (h :: t).map hexChar := by
  have := toDigitsCore_valAcc h t hh hlt (valAcc 0 (h :: t) + 1) [] (by omega)
  simpa [hexNumeral, Nat.toDigits] using this

theorem dropWhile_zero_head (ds : List Nat) (h : Nat) (t : List Nat)
    (hd : ds.dropWhile (· == 0) = h :: t) : 0 < h := by
  induction ds with
  | nil => simp at hd
  | cons d ds ih =>
    by_cases hz : d = 0
    · subst hz
      exact ih (by simpa [List.dropWhile_cons] using hd)
    · simp only [List.dropWhile_cons, beq_iff_eq, hz, if_false] at hd
      have : d = h := by injection hd
      omega

theorem eq_replicate_append_dropWhile (ds : List Nat) :
    ds = List.replicate (ds.length - (ds.dropWhile (· == 0)).length) 0 ++
      ds.dropWhile (· == 0) := by
  induction ds with
  | nil => rfl
  | cons d ds ih =>
    by_cases hz : d = 0
    · subst hz
      have hle : (ds.dropWhile (· == 0)).length ≤ ds.length :=
        (List.dropWhile_sublist _).length_le
      have hk : (0 :: ds).length - (ds.dropWhile (· == 0)).length =
          (ds.length - (ds.dropWhile (· == 0)).length) + 1 := by
        simp only [List.length_cons]
        omega
      have hdw : (0 :: ds).dropWhile (· == 0) = ds.dropWhile (· == 0) := by
        simp [List.dropWhile_cons]
      rw [hdw, hk, List.replicate_succ, List.cons_append, ← ih]
    · have hdw : (d :: ds).dropWhile (· == 0) = d :: ds := by
        simp [List.dropWhile_cons, hz]
      rw [hdw]
      simp

/-- The digits `writeHex` emits with zero suppression are the canonical numeral, unless the
value is 0 (nothing is emitted then). -/
theorem map_dropWhile_nibbles (v : Nat) (hv : v < 2 ^ 64) (h0 : v ≠ 0) :
    ((nibbles v).dropWhile (· == 0)).map hexChar = hexNumeral v := by
  have hval : valAcc 0 ((nibbles v).dropWhile (· == 0)) = v := by
    rw [valAcc_dropWhile, valAcc_nibbles, Nat.mod_eq_of_lt hv]
  cases hds : (nibbles v).dropWhile (· == 0) with
  | nil =>
    rw [hds] at hval
    exact absurd hval.symm (by simpa [valAcc] using h0)
  | cons h t =>
    have hh := dropWhile_zero_head _ h t hds
    have hlt : ∀ d ∈ h :: t, d < 16 := fun d hd =>
      nibbles_lt v d ((List.dropWhile_sublist _).subset (hds ▸ hd))
    rw [hds] at hval
    rw [← hexNumeral_valAcc h t hh hlt, hval]

theorem writeHex_eq_hexNumeral (v : Nat) (hv : v < 2 ^ 64) :
    writeHex [] v true true = hexNumeral v := by
  rw [writeHex_default, Nat.mod_eq_of_lt hv]
  by_cases h0 : v = 0
  · subst h0
    decide
  · rw [if_neg h0, map_dropWhile_nibbles v hv h0]

theorem writeHex_high_eq_hexNumeral (v : Nat) (hv : v < 2 ^ 64) (h0 : v ≠ 0) :
    writeHex [] v true false = hexNumeral v := by
  rw [writeHex_eq]
  simp [emitted, map_dropWhile_nibbles v hv h0]

theorem length_hexNumeral (v : Nat) (hv : v < 2 ^ 64) :
    1 ≤ (hexNumeral v).length ∧ (hexNumeral v).length ≤ 16 := by
  by_cases h0 : v = 0
  · subst h0
    decide
  · rw [← map_dropWhile_nibbles v hv h0, List.length_map]
    have hle := (List.dropWhile_sublist (· == 0) (l := nibbles v)).length_le
    rw [nibbles_length] at hle
    refine ⟨?_, hle⟩
    rcases Nat.eq_zero_or_pos ((nibbles v).dropWhile (· == 0)).length with h | h
    · have hnil := List.length_eq_zero.1 h
      have hz := (nibbles_all_zero_iff v).1 (all_zero_of_dropWhile_nil _ hnil)
      rw [Nat.mod_eq_of_lt hv] at hz
      exact absurd hz h0
    · exact h

theorem writeHex_noskip_eq_hexPadded16 (v : Nat) (hv : v < 2 ^ 64) (notEmpty : Bool) :
    writeHex [] v false notEmpty = hexPadded16 v := by
  rw [writeHex_eq]
  simp only [emitted, Bool.false_and, Bool.false_eq_true, if_false, List.nil_append,
    List.append_nil]
  by_cases h0 : v = 0
  · subst h0
    decide
  · unfold hexPadded16 List.leftpad
    rw [← map_dropWhile_nibbles v hv h0, List.length_map]
    conv_lhs => rw [eq_replicate_append_dropWhile (nibbles v)]
    rw [List.map_append, List.map_replicate, nibbles_length]
    rfl

theorem hexChar_mem_hexValues : ∀ d, d < 16 → hexChar d ∈ hexValues := by decide

theorem hexChar_ne_zero_char : ∀ d, d < 16 → 0 < d → hexChar d ≠ '0' := by decide

theorem colon_not_mem_hexValues : ':' ∉ hexValues := by decide

theorem hexValue_map_aux (acc : Nat) (ds : List Nat) (h : ∀ d ∈ ds, d < 16) :
    (ds.map hexChar).foldl (fun a ch => a * 16 + (hexDigit? ch).getD 0) acc = valAcc acc ds := by
  induction ds generalizing acc with
  | nil => rfl
  | cons d ds ih =>
    have hd : d < 16 := h d (List.mem_cons_self _ _)
    have hds : ∀ e ∈ ds, e < 16 := fun e he => h e (List.mem_cons_of_mem _ he)
    simp only [List.map_cons, List.foldl_cons, hexDigit?_hexChar d hd, Option.getD_some]
    rw [ih _ hds]
    simp [valAcc]

theorem hexValue_map (ds : List Nat) (h : ∀ d ∈ ds, d < 16) :
    hexValue (ds.map hexChar) = valAcc 0 ds :=
  hexValue_map_aux 0 ds h

/-- The digits of the canonical numeral of a non-zero 64-bit value. -/
theorem hexNumeral_digits (v : Nat) (hv : v < 2 ^ 64) (h0 : v ≠ 0) :
    ∃ h t, hexNumeral v = (h :: t).map hexChar ∧ 0 < h ∧ (∀ d ∈ h :: t, d < 16) ∧
      valAcc 0 (h :: t) = v := by
  have hval : valAcc 0 ((nibbles v).dropWhile (· == 0)) = v := by
    rw [valAcc_dropWhile, valAcc_nibbles, Nat.mod_eq_of_lt hv]
  cases hds : (nibbles v).dropWhile (· == 0) with
  | nil =>
    rw [hds] at hval
    exact absurd hval.symm (by simpa [valAcc] using h0)
  | cons h t =>
    refine ⟨h, t, ?_, dropWhile_zero_head _ h t hds, ?_, hds ▸ hval⟩
    · rw [← map_dropWhile_nibbles v hv h0, hds]
    · intro d hd
      exact nibbles_lt v d ((List.dropWhile_sublist _).subset (hds ▸ hd))

theorem hexNumeral_mem_hexValues (v : Nat) (hv : v < 2 ^ 64) :
    ∀ ch ∈ hexNumeral v, ch ∈ hexValues := by
  by_cases h0 : v = 0
  · subst h0
    decide
  · obtain ⟨h, t, hnum, _, hlt, _⟩ := hexNumeral_digits v hv h0
    rw [hnum]
    intro ch hch
    obtain ⟨d, hd, rfl⟩ := List.mem_map.1 hch
    exact hexChar_mem_hexValues d (hlt d hd)

theorem hexValue_hexNumeral (v : Nat) (hv : v < 2 ^ 64) : hexValue (hexNumeral v) = v := by
  by_cases h0 : v = 0
  · subst h0
    decide
  · obtain ⟨h, t, hnum, _, hlt, hval⟩ := hexNumeral_digits v hv h0
    rw [hnum, hexValue_map _ hlt, hval]

theorem hexNumeral_head_zero_iff (v : Nat) (hv : v < 2 ^ 64) :
    (hexNumeral v).head? = some '0' ↔ v = 0 := by
  constructor
  · intro hhead
    by_contra h0
    obtain ⟨h, t, hnum, hh, hlt, _⟩ := hexNumeral_digits v hv h0
    rw [hnum] at hhead
    simp only [List.map_cons, List.head?_cons, Option.some.injEq] at hhead
    exact hexChar_ne_zero_char h (hlt h (List.mem_cons_self _ _)) hh hhead
  · intro h0
    subst h0
    decide

/-- C11. Trace-id field encoding: for a span context whose fields fit their types, the text of
`inject c` before the first `':'` is, when `high` is not 0, the canonical hexadecimal numeral
of `high` (1 to 16 digits) followed by `low` zero-padded to exactly 16 digits (17 to 32
characters in all), and, when `high` is 0, the canonical numeral of `low` alone (1 to 16
characters). For `high = 1`, `low = 0` the field is `"10000000000000000"`. -/
theorem inject_traceID_field (c : SpanContext) (hwf : c.WF) :
    c.inject.takeWhile (· != ':') =
        (if c.traceID.high ≠ 0 then hexNumeral c.traceID.high ++ hexPadded16 c.traceID.low
          else hexNumeral c.traceID.low) ∧
      1 ≤ (hexNumeral c.traceID.high).length ∧ (hexNumeral c.traceID.high).length ≤ 16 ∧
      (hexPadded16 c.traceID.low).length = 16 ∧
      1 ≤ (hexNumeral c.traceID.low).length ∧ (hexNumeral c.traceID.low).length ≤ 16 ∧
      (if c.traceID.high ≠ 0 then
          17 ≤ (c.inject.takeWhile (· != ':')).length ∧
            (c.inject.takeWhile (· != ':')).length ≤ 32
        else
          1 ≤ (c.inject.takeWhile (· != ':')).length ∧
            (c.inject.takeWhile (· != ':')).length ≤ 16) ∧
      (SpanContext.inject ⟨⟨1, 0⟩, 0, 0, 0⟩).takeWhile (· != ':') =
        "10000000000000000".toList := by
  obtain ⟨⟨high, low⟩, spanID, parentID, flags⟩ := c
  obtain ⟨⟨hhi, hlow⟩, _, _, _⟩ := hwf
  simp only at hhi hlow
  have hlenH := length_hexNumeral high hhi
  have hlenL := length_hexNumeral low hlow
  have hpad : (hexPadded16 low).length = 16 := by
    rw [← writeHex_noskip_eq_hexPadded16 low hlow true, length_writeHex_noskip]
  have hfield : (SpanContext.inject ⟨⟨high, low⟩, spanID, parentID, flags⟩).takeWhile
      (· != ':') =
      (if high ≠ 0 then hexNumeral high ++ hexPadded16 low else hexNumeral low) := by
    rw [inject_eq]
    by_cases h0 : high = 0
    · subst h0
      simp only [bne_self_eq_false, Bool.false_eq_true, if_false, ne_eq, not_true_eq_false]
      rw [takeWhile_ne_append ':' _ _ (colon_not_mem_writeHex _ _ _),
        writeHex_eq_hexNumeral low hlow]
    · have hb : (high != 0) = true := by simpa using h0
      have hh : high % 2 ^ 64 ≠ 0 := by rw [Nat.mod_eq_of_lt hhi]; exact h0
      simp only [hb, if_true, ne_eq, h0, not_false_eq_true]
      rw [takeWhile_ne_append ':' _ _ (traceIDOfField_high_low high low hh).2.1,
        writeHex_high_eq_hexNumeral high hhi h0, writeHex_noskip_eq_hexPadded16 low hlow]
  refine ⟨hfield, hlenH.1, hlenH.2, hpad, hlenL.1, hlenL.2, ?_, by decide⟩
  rw [hfield]
  by_cases h0 : high = 0
  · simp only [ne_eq, h0, not_true_eq_false, if_false]
    exact hlenL
  · simp only [ne_eq, h0, not_false_eq_true, if_true, List.length_append, hpad]
    omega

/-- Witness of C11 at `high = 1`, `low = 0`. -/
theorem inject_traceID_field_witness :
    SpanContext.WF ⟨⟨1, 0⟩, 0, 0, 0⟩ ∧
      (SpanContext.inject ⟨⟨1, 0⟩, 0, 0, 0⟩).takeWhile (· != ':') =
        hexNumeral 1 ++ hexPadded16 0 :=
  ⟨by decide, (inject_traceID_field ⟨⟨1, 0⟩, 0, 0, 0⟩ (by decide)).1⟩

/-- C12. Canonical hex of a 64-bit field: for every `v` below `2^64`, `writeHex` with its
default arguments appends to the string exactly the canonical lowercase hexadecimal numeral of
`v`, leaving the characters already there unchanged: the appended text has between 1 and 16
characters, each one of `0123456789abcdef`, its base-16 value is `v`, and its first character
is `'0'` exactly when `v` is 0, in which case the appended text is `"0"`. -/
theorem writeHex_canonical (str : List Char) (v : Nat) (hv : v < 2 ^ 64) :
    ∃ out, writeHex str v true true = str ++ out ∧
      out = hexNumeral v ∧
      1 ≤ out.length ∧ out.length ≤ 16 ∧
      (∀ ch ∈ out, ch ∈ hexValues) ∧
      hexValue out = v ∧ decodeHex 64 out = v ∧
      (out.head? = some '0' ↔ v = 0) ∧
      (v = 0 → out = ['0']) := by
  refine ⟨hexNumeral v, ?_, rfl, (length_hexNumeral v hv).1, (length_hexNumeral v hv).2,
    hexNumeral_mem_hexValues v hv, hexValue_hexNumeral v hv, ?_,
    hexNumeral_head_zero_iff v hv, ?_⟩
  · rw [writeHex_append, writeHex_eq_hexNumeral v hv]
  · rw [← writeHex_eq_hexNumeral v hv, decodeHex_writeHex, Nat.mod_eq_of_lt hv]
  · intro h0
    subst h0
    decide

/-- Witness of C12 at `v = 255` appended to `"ab:"`. -/
theorem writeHex_canonical_witness :
    (255 : Nat) < 2 ^ 64 ∧ writeHex "ab:".toList 255 true true = "ab:ff".toList ∧
      ∃ out, writeHex "ab:".toList 255 true true = "ab:".toList ++ out ∧ out = hexNumeral 255 :=
  ⟨by decide, by decide,
    (writeHex_canonical "ab:".toList 255 (by decide)).imp fun _ h => ⟨h.1, h.2.1⟩⟩

/-! ## The shape of the wire text -/

theorem writeHex_mem_hexValues (v : Nat) (skip notEmpty : Bool) :
    ∀ ch ∈ writeHex [] v skip notEmpty, ch ∈ hexValues := by
  intro ch hch
  rw [writeHex_eq] at hch
  simp only [List.nil_append, List.mem_append, List.mem_map] at hch
  rcases hch with ⟨d, hd, rfl⟩ | hch
  · exact hexChar_mem_hexValues d (emitted_lt skip v d hd)
  · split at hch
    · simp only [List.mem_singleton] at hch
      subst hch
      decide
    · simp at hch

theorem length_writeHex_le (v : Nat) (skip notEmpty : Bool) :
    (writeHex [] v skip notEmpty).length ≤ 16 := by
  rw [writeHex_eq]
  have hle : (emitted skip (nibbles v)).length ≤ 16 := by
    cases skip
    · simp [emitted, nibbles_length]
    · have := (List.dropWhile_sublist (· == 0) (l := nibbles v)).length_le
      rw [nibbles_length] at this
      simpa [emitted] using this
  simp only [List.nil_append, List.length_append, List.length_map]
  split
  · rename_i hz
    simp only [Bool.and_eq_true] at hz
    obtain ⟨⟨hs, hall⟩, _⟩ := hz
    subst hs
    simp [emitted, dropWhile_nil_of_all_zero _ hall]
  · simpa using hle

theorem flags_field_shape (v : Nat) :
    (((byteNibbles v).dropWhile (· == 0)).map hexChar).length ≤ 2 ∧
      ∀ ch ∈ ((byteNibbles v).dropWhile (· == 0)).map hexChar, ch ∈ hexValues := by
  constructor
  · have := (List.dropWhile_sublist (· == 0) (l := byteNibbles v)).length_le
    simpa [byteNibbles] using this
  · intro ch hch
    obtain ⟨d, hd, rfl⟩ := List.mem_map.1 hch
    exact hexChar_mem_hexValues d
      (byteNibbles_lt v d ((List.dropWhile_sublist _).subset hd))

theorem count_colon_eq_zero (f : List Char) (h : ∀ ch ∈ f, ch ∈ hexValues) :
    f.count ':' = 0 :=
  List.count_eq_zero_of_not_mem (fun hmem => colon_not_mem_hexValues (h ':' hmem))

/-- C13. Wire format shape: for every span context, `inject c` is four fields separated by
three `':'`; it contains exactly three `':'` characters, every other character is one of
`0123456789abcdef`, the trace-id field has at most 32 characters, the span-id and parent-id
fields at most 16 each and the flags field at most 2. -/
theorem inject_wire_shape (c : SpanContext) :
    ∃ f1 f2 f3 f4, c.inject = f1 ++ ':' :: (f2 ++ ':' :: (f3 ++ ':' :: f4)) ∧
      (∀ ch ∈ f1 ++ f2 ++ f3 ++ f4, ch ∈ hexValues) ∧
      f1.length ≤ 32 ∧ f2.length ≤ 16 ∧ f3.length ≤ 16 ∧ f4.length ≤ 2 ∧
      c.inject.count ':' = 3 ∧
      (∀ ch ∈ c.inject, ch = ':' ∨ ch ∈ hexValues) ∧
      (∀ ch ∈ c.inject, ch ≠ 'x' ∧ ¬ ch.isUpper) := by
  have hshape : ∃ f1 f2 f3 f4, c.inject = f1 ++ ':' :: (f2 ++ ':' :: (f3 ++ ':' :: f4)) ∧
      (∀ ch ∈ f1, ch ∈ hexValues) ∧ (∀ ch ∈ f2, ch ∈ hexValues) ∧
      (∀ ch ∈ f3, ch ∈ hexValues) ∧ (∀ ch ∈ f4, ch ∈ hexValues) ∧
      f1.length ≤ 32 ∧ f2.length ≤ 16 ∧ f3.length ≤ 16 ∧ f4.length ≤ 2 := by
    refine ⟨_, _, _, _, inject_eq c, ?_, writeHex_mem_hexValues _ _ _,
      writeHex_mem_hexValues _ _ _, (flags_field_shape c.flags).2, ?_,
      length_writeHex_le _ _ _, length_writeHex_le _ _ _, (flags_field_shape c.flags).1⟩
    · intro ch hch
      split at hch
      · rcases List.mem_append.1 hch with h | h
        · exact writeHex_mem_hexValues _ _ _ ch h
        · exact writeHex_mem_hexValues _ _ _ ch h
      · exact writeHex_mem_hexValues _ _ _ ch hch
    · split
      · rw [List.length_append]
        have h1 := length_writeHex_le c.traceID.high true false
        have h2 := length_writeHex_le c.traceID.low false true
        omega
      · have h1 := length_writeHex_le c.traceID.low true true
        omega
  obtain ⟨f1, f2, f3, f4, heq, m1, m2, m3, m4, l1, l2, l3, l4⟩ := hshape
  have hmem : ∀ ch ∈ c.inject, ch = ':' ∨ ch ∈ hexValues := by
    intro ch hch
    rw [heq] at hch
    simp only [List.mem_append, List.mem_cons] at hch
    rcases hch with h | h | h | h | h | h | h
    · exact Or.inr (m1 ch h)
    · exact Or.inl h
    · exact Or.inr (m2 ch h)
    · exact Or.inl h
    · exact Or.inr (m3 ch h)
    · exact Or.inl h
    · exact Or.inr (m4 ch h)
  refine ⟨f1, f2, f3, f4, heq, ?_, l1, l2, l3, l4, ?_, hmem, ?_⟩
  · intro ch hch
    simp only [List.mem_append] at hch
    rcases hch with ((h | h) | h) | h
    · exact m1 ch h
    · exact m2 ch h
    · exact m3 ch h
    · exact m4 ch h
  · rw [heq]
    simp only [List.count_append, List.count_cons_self, count_colon_eq_zero f1 m1,
      count_colon_eq_zero f2 m2, count_colon_eq_zero f3 m3, count_colon_eq_zero f4 m4]
  · intro ch hch
    have hall : ∀ x ∈ hexValues, x ≠ 'x' ∧ ¬ x.isUpper := by decide
    rcases hmem ch hch with h | h
    · subst h
      decide
    · exact hall ch h

end jaegertracing

namespace jaegertracing.samplers

/-! ## The sampling boundary -/

theorem computeSamplingBoundary_one : computeSamplingBoundary 1 = 2 ^ 64 - 1 := by
  simp [computeSamplingBoundary, kMaxRandomNumber]

theorem computeSamplingBoundary_zero : computeSamplingBoundary 0 = 0 := by
  simp [computeSamplingBoundary, kMaxRandomNumber]

/-- C14. Boundary saturation: `computeSamplingBoundary(1.0)` is exactly `2^64 - 1` and
`computeSamplingBoundary(0.0)` is 0; hence, when the entry that matches the operation has the
rate 1.0, `isSampled` samples every trace id, whatever its low word is. -/
theorem boundary_saturation (cfg : List (List Char × ℚ)) (operation : List Char)
    (id : TraceID) (e : List Char × ℚ) (hid : id.low < 2 ^ 64)
    (hfind : cfg.find? (fun e => e.1.isPrefixOf operation) = some e) (hrate : e.2 = 1) :
    computeSamplingBoundary 1 = 2 ^ 64 - 1 ∧ computeSamplingBoundary 0 = 0 ∧
      (ProbabilisticCategorizerSampler.new computeSamplingBoundary cfg).isSampled id
        operation = true := by
  refine ⟨computeSamplingBoundary_one, computeSamplingBoundary_zero, ?_⟩
  rw [isSampled_new, firstPrefixBoundary, hfind]
  change decide (id.low ≤ computeSamplingBoundary e.2) = true
  rw [hrate, computeSamplingBoundary_one, decide_eq_true_eq]
  omega

/-- Witness of C14: the configuration `[("checkout", 1.0), ("default", 0.0)]`, the operation
`"checkoutFlow"` and the largest low word. -/
theorem boundary_saturation_witness :
    (ProbabilisticCategorizerSampler.new computeSamplingBoundary
        [("checkout".toList, 1), ("default".toList, 0)]).isSampled ⟨0, 2 ^ 64 - 1⟩
        "checkoutFlow".toList = true :=
  (boundary_saturation [("checkout".toList, 1), ("default".toList, 0)] "checkoutFlow".toList
    ⟨0, 2 ^ 64 - 1⟩ ("checkout".toList, 1) (by decide) (by simp [List.find?]) rfl).2.2

/-! ## Determinism and monotonicity of the verdict -/

theorem isSampledLoop_low (dflt : Nat) (a b : TraceID) (operation : List Char)
    (tbl : List (List Char × Nat)) (h : a.low = b.low) :
    isSampledLoop dflt a operation tbl = isSampledLoop dflt b operation tbl := by
  rw [isSampledLoop_eq, isSampledLoop_eq, h]

theorem afterCalls_eq (s : ProbabilisticCategorizerSampler)
    (calls : List (TraceID × List Char)) : s.afterCalls calls = s := by
  induction calls with
  | nil => rfl
  | cons call calls ih =>
    simp [ProbabilisticCategorizerSampler.afterCalls,
      ProbabilisticCategorizerSampler.isSampledCall]

/-- C15. Sampler determinism: two trace ids with the same low word (and any high words) get
the same verdict for the same operation name, also when any number of `isSampled` calls was
made on the sampler in between; a call leaves the sampler object, that is the boundary table
and the default boundary, unchanged. -/
theorem isSampled_deterministic (s : ProbabilisticCategorizerSampler) (a b : TraceID)
    (operation : List Char) (calls : List (TraceID × List Char)) (h : a.low = b.low) :
    (s.isSampledCall a operation).1 = (s.isSampledCall b operation).1 ∧
      ((s.afterCalls calls).isSampledCall a operation).1 = (s.isSampledCall b operation).1 ∧
      (s.isSampledCall a operation).2 = s ∧
      (s.isSampledCall a operation).2.samplingBoundaries = s.samplingBoundaries ∧
      (s.isSampledCall a operation).2.defaultSamplingBoundary = s.defaultSamplingBoundary := by
  have hv : s.isSampled a operation = s.isSampled b operation :=
    isSampledLoop_low _ a b operation _ h
  refine ⟨hv, ?_, rfl, rfl, rfl⟩
  rw [afterCalls_eq]
  exact hv

/-- Witness of C15: the trace ids `(1, 7)` and `(2, 7)` after two earlier calls. -/
theorem isSampled_deterministic_witness :
    ((ProbabilisticCategorizerSampler.afterCalls ⟨[("checkout".toList, 10)], 3⟩
        [(⟨0, 1⟩, "a".toList), (⟨5, 99⟩, "checkout".toList)]).isSampledCall ⟨1, 7⟩
        "checkoutFlow".toList).1 =
      (ProbabilisticCategorizerSampler.isSampledCall ⟨[("checkout".toList, 10)], 3⟩ ⟨2, 7⟩
        "checkoutFlow".toList).1 :=
  (isSampled_deterministic ⟨[("checkout".toList, 10)], 3⟩ ⟨1, 7⟩ ⟨2, 7⟩ "checkoutFlow".toList
    [(⟨0, 1⟩, "a".toList), (⟨5, 99⟩, "checkout".toList)] rfl).2.1

/-- C19. The verdict is monotone in the low word of the trace id: if `isSampled` samples the
trace id `a` for an operation, it samples every trace id `b` with `b.low ≤ a.low` for that
operation; and a trace id whose low word is 0 is sampled by every sampler for every
operation. -/
theorem isSampled_monotone (s : ProbabilisticCategorizerSampler) (operation : List Char)
    (a b : TraceID) (hle : b.low ≤ a.low) (ha : s.isSampled a operation = true) :
    s.isSampled b operation = true ∧
      ∀ (s2 : ProbabilisticCategorizerSampler) (op : List Char) (high : Nat),
        s2.isSampled ⟨high, 0⟩ op = true := by
  constructor
  · rw [ProbabilisticCategorizerSampler.isSampled, isSampledLoop_eq] at ha ⊢
    simp only [decide_eq_true_eq] at ha ⊢
    omega
  · intro s2 op high
    rw [ProbabilisticCategorizerSampler.isSampled, isSampledLoop_eq]
    simp

/-- Witness of C19: with the boundary 10 for `"checkout"`, the low word 10 is sampled, hence
so is the low word 4. -/
theorem isSampled_monotone_witness :
    ProbabilisticCategorizerSampler.isSampled ⟨[("checkout".toList, 10)], 3⟩ ⟨0, 10⟩
        "checkoutFlow".toList = true ∧
      ProbabilisticCategorizerSampler.isSampled ⟨[("checkout".toList, 10)], 3⟩ ⟨0, 4⟩
        "checkoutFlow".toList = true :=
  ⟨by decide,
    (isSampled_monotone ⟨[("checkout".toList, 10)], 3⟩ "checkoutFlow".toList ⟨0, 10⟩ ⟨0, 4⟩
      (by decide) (by decide)).1⟩

end jaegertracing.samplers

namespace jaegertracing.samplers

theorem computeSamplingBoundary_half : computeSamplingBoundary (1 / 2) = 2 ^ 63 - 1 := by
  have hfloor : ⌊(1 / 2 : ℚ) * ((2 ^ 64 - 1 : ℕ) : ℚ)⌋ = 2 ^ 63 - 1 := by
    rw [Int.floor_eq_iff]
    constructor <;> norm_num
  have hne : ¬ ((1 / 2 : ℚ) * ((2 ^ 64 - 1 : ℕ) : ℚ) = ((2 ^ 64 - 1 : ℕ) : ℚ)) := by
    norm_num
  unfold computeSamplingBoundary kMaxRandomNumber
  simp only [hne, if_false, hfloor]
  norm_num
  omega

/-- C18, as stated, fails: the rate 0.5, whose exact product with `2^64 - 1` is `2^63 - 0.5`,
gives the boundary `2^63 - 1`, the product with its fractional part dropped, and not the
rounded value `2^63`. -/
theorem boundary_half_is_truncated :
    computeSamplingBoundary (1 / 2) = 2 ^ 63 - 1 ∧
      computeSamplingBoundary (1 / 2) ≠ 2 ^ 63 ∧
      round ((1 / 2 : ℚ) * (2 ^ 64 - 1)) = 2 ^ 63 := by
  refine ⟨computeSamplingBoundary_half, ?_, ?_⟩
  · rw [computeSamplingBoundary_half]
    norm_num
  · rw [round_eq, Int.floor_eq_iff]
    constructor <;> norm_num

/-- C18, amended. For every rate `r` in `[0, 1]`, `computeSamplingBoundary(r)` is the product
`r × (2^64 - 1)` with its fractional part dropped (rounded down, not to the nearest integer),
and it is at most `2^64 - 1`. -/
theorem boundary_is_floor (r : ℚ) (h0 : 0 ≤ r) (h1 : r ≤ 1) :
    (computeSamplingBoundary r : ℤ) = ⌊r * (2 ^ 64 - 1)⌋ ∧
      computeSamplingBoundary r ≤ 2 ^ 64 - 1 := by
  have hmax : ((kMaxRandomNumber : ℕ) : ℚ) = 2 ^ 64 - 1 := by
    unfold kMaxRandomNumber
    norm_num
  have hle : r * (2 ^ 64 - 1) ≤ 2 ^ 64 - 1 := by
    have hpos : (0 : ℚ) ≤ 2 ^ 64 - 1 := by norm_num
    calc r * (2 ^ 64 - 1) ≤ 1 * (2 ^ 64 - 1) := mul_le_mul_of_nonneg_right h1 hpos
      _ = 2 ^ 64 - 1 := one_mul _
  have hfloor_le : ⌊r * (2 ^ 64 - 1)⌋ ≤ 2 ^ 64 - 1 := by
    have h := Int.floor_le_floor hle
    have hz : ⌊(2 ^ 64 - 1 : ℚ)⌋ = 2 ^ 64 - 1 := by
      rw [Int.floor_eq_iff]
      constructor <;> norm_num
    rw [hz] at h
    exact h
  have hnat : ⌊r * (2 ^ 64 - 1)⌋.toNat ≤ 2 ^ 64 - 1 := by
    omega
  have hval : computeSamplingBoundary r = ⌊r * (2 ^ 64 - 1)⌋.toNat := by
    unfold computeSamplingBoundary
    simp only [hmax]
    split
    · rename_i heq
      rw [heq]
      have hz : ⌊(2 ^ 64 - 1 : ℚ)⌋ = 2 ^ 64 - 1 := by
        rw [Int.floor_eq_iff]
        constructor <;> norm_num
      rw [hz]
      unfold kMaxRandomNumber
      norm_num
      omega
    · exact Nat.mod_eq_of_lt (by omega)
  have hnonneg : 0 ≤ ⌊r * (2 ^ 64 - 1)⌋ :=
    Int.floor_nonneg.2 (mul_nonneg h0 (by norm_num))
  refine ⟨?_, hval ▸ hnat⟩
  rw [hval]
  exact Int.toNat_of_nonneg hnonneg

/-- Witness of C18 (amended) at the rate 0.5. -/
theorem boundary_is_floor_witness :
    (0 : ℚ) ≤ 1 / 2 ∧ (1 / 2 : ℚ) ≤ 1 ∧
      (computeSamplingBoundary (1 / 2) : ℤ) = ⌊(1 / 2 : ℚ) * (2 ^ 64 - 1)⌋ :=
  ⟨by norm_num, by norm_num, (boundary_is_floor (1 / 2) (by norm_num) (by norm_num)).1⟩

end jaegertracing.samplers

namespace jaegertracing

/-! ## The fields `extract` decodes -/

theorem traceIDOfField_eq (f : List Char) :
    traceIDOfField f =
      if f.length ≤ 16 then ⟨0, decodeHex 64 f⟩
      else ⟨decodeHex 64 (f.take (f.length - 16)), decodeHex 64 (f.drop (f.length - 16))⟩ := by
  unfold traceIDOfField
  by_cases h : f.length ≤ 16
  · have h2 : ¬ f.length > 16 := by omega
    rw [if_neg h2, if_pos h]
  · have h2 : f.length > 16 := by omega
    rw [if_pos h2, if_neg h, slice_to_length]
    simp [slice]

/-- C16. Field decoding by `extract`: a text with at least three `':'` splits at its first
three `':'` into the fields `f1`, `f2`, `f3` and the rest `f4`, and `extract` succeeds with
`spanID = decodeHex f2`, `parentID = decodeHex f3`, `flags = decodeHex f4` as a single byte
(modulo 256), and `traceID = (0, decodeHex f1)` when `f1` has at most 16 characters, or
`(decodeHex` of all but its last 16 characters, `decodeHex` of its last 16 characters`)` when it
has more. -/
theorem extract_decodes_fields (self : SpanContext) (trace : List Char)
    (h : 3 ≤ trace.count ':') :
    ∃ f1 f2 f3 f4, trace = f1 ++ ':' :: (f2 ++ ':' :: (f3 ++ ':' :: f4)) ∧
      ':' ∉ f1 ∧ ':' ∉ f2 ∧ ':' ∉ f3 ∧
      self.extract trace =
        (true,
          { traceID :=
              if f1.length ≤ 16 then ⟨0, decodeHex 64 f1⟩
              else ⟨decodeHex 64 (f1.take (f1.length - 16)),
                decodeHex 64 (f1.drop (f1.length - 16))⟩,
            spanID := decodeHex 64 f2,
            parentID := decodeHex 64 f3,
            flags := decodeHex 64 f4 % 256 }) := by
  rcases extract_shape trace with ⟨_, hc⟩ | ⟨f1, r1, rfl, _, _, hc⟩ |
    ⟨f1, f2, r2, rfl, _, _, _, hc⟩ | ⟨f1, f2, f3, f4, rfl, h1, h2, h3, _⟩
  · omega
  · omega
  · omega
  · refine ⟨f1, f2, f3, f4, rfl, h1, h2, h3, ?_⟩
    rw [extract_fields self f1 f2 f3 f4 h1 h2 h3, traceIDOfField_eq]

/-- Witness of C16 on the text `"a10000000000000002:b:c:1ff"`, whose trace-id field has 18
characters and whose flags field exceeds one byte. -/
theorem extract_decodes_fields_witness :
    3 ≤ "a10000000000000002:b:c:1ff".toList.count ':' ∧
      SpanContext.default.extract "a10000000000000002:b:c:1ff".toList =
        (true, ⟨⟨161, 2⟩, 11, 12, 255⟩) ∧
      ∃ f1 f2 f3 f4, "a10000000000000002:b:c:1ff".toList =
        f1 ++ ':' :: (f2 ++ ':' :: (f3 ++ ':' :: f4)) ∧ ':' ∉ f1 ∧ ':' ∉ f2 ∧ ':' ∉ f3 :=
  ⟨by decide, by decide,
    (extract_decodes_fields SpanContext.default "a10000000000000002:b:c:1ff".toList
      (by decide)).imp fun _ h1 => h1.imp fun _ h2 => h2.imp fun _ h3 => h3.imp fun _ h4 =>
        ⟨h4.1, h4.2.1, h4.2.2.1, h4.2.2.2.1⟩⟩

end jaegertracing

namespace jaegertracing

/-! ## `fromStream` on the text written by `inject` -/

theorem hexDigit?_isSome_of_mem : ∀ ch ∈ hexValues, (hexDigit? ch).isSome = true := by decide

theorem readSegmentLoop_delimited (d : Char) (f rest : List Char) (n : Nat)
    (buffer : List Char) (hhex : ∀ ch ∈ f, ch ∈ hexValues) (hd : d ∉ f) (hn : f.length ≤ n) :
    readSegmentLoop d (f ++ d :: rest) n buffer = (buffer ++ f, d :: rest, false) := by
  induction f generalizing n buffer with
  | nil => simp [readSegmentLoop]
  | cons x f ih =>
    have hx : x ≠ d := fun e => hd (e ▸ List.mem_cons_self _ _)
    have hf : d ∉ f := fun e => hd (List.mem_cons_of_mem _ e)
    have hxhex := hexDigit?_isSome_of_mem x (hhex x (List.mem_cons_self _ _))
    have hn0 : n ≠ 0 := by
      simp only [List.length_cons] at hn
      omega
    rw [List.cons_append, readSegmentLoop, if_neg hx, if_neg hn0, if_pos hxhex,
      ih (n - 1) (buffer ++ [x]) (fun ch hch => hhex ch (List.mem_cons_of_mem _ hch)) hf
        (by simp only [List.length_cons] at hn; omega)]
    simp

theorem readSegmentLoop_to_end (d : Char) (f : List Char) (n : Nat)
    (buffer : List Char) (hhex : ∀ ch ∈ f, ch ∈ hexValues) (hd : d ∉ f) (hn : f.length ≤ n) :
    readSegmentLoop d f n buffer = (buffer ++ f, [], true) := by
  induction f generalizing n buffer with
  | nil => simp [readSegmentLoop]
  | cons x f ih =>
    have hx : x ≠ d := fun e => hd (e ▸ List.mem_cons_self _ _)
    have hf : d ∉ f := fun e => hd (List.mem_cons_of_mem _ e)
    have hxhex := hexDigit?_isSome_of_mem x (hhex x (List.mem_cons_self _ _))
    have hn0 : n ≠ 0 := by
      simp only [List.length_cons] at hn
      omega
    rw [readSegmentLoop, if_neg hx, if_neg hn0, if_pos hxhex,
      ih (n - 1) (buffer ++ [x]) (fun ch hch => hhex ch (List.mem_cons_of_mem _ hch)) hf
        (by simp only [List.length_cons] at hn; omega)]
    simp

theorem readSegment_delimited (f rest : List Char) (n : Nat)
    (hhex : ∀ ch ∈ f, ch ∈ hexValues) (hn : f.length ≤ n) :
    readSegment ⟨f ++ ':' :: rest, true⟩ n ':' = (f, ⟨':' :: rest, true⟩) := by
  have hd : ':' ∉ f := fun hmem => colon_not_mem_hexValues (hhex ':' hmem)
  simp [readSegment, readSegmentLoop_delimited ':' f rest n [] hhex hd hn]

theorem readSegment_to_end (f : List Char) (n : Nat)
    (hhex : ∀ ch ∈ f, ch ∈ hexValues) (hn : f.length ≤ n) :
    readSegment ⟨f, true⟩ n ':' = (f, ⟨[], false⟩) := by
  have hd : ':' ∉ f := fun hmem => colon_not_mem_hexValues (hhex ':' hmem)
  simp [readSegment, readSegmentLoop_to_end ':' f n [] hhex hd hn]

theorem get_colon (rest : List Char) :
    IStream.get ⟨':' :: rest, true⟩ = (some ':', ⟨rest, true⟩) := by
  simp [IStream.get]

/-- What `fromStream`, with the trace-id reader and `readSegment` as the spec describes them,
returns on a text of four hexadecimal fields: the default context when one of them is empty,
the decoded fields otherwise. -/
theorem fromStream_fields (f1 f2 f3 f4 : List Char)
    (m1 : ∀ ch ∈ f1, ch ∈ hexValues) (m2 : ∀ ch ∈ f2, ch ∈ hexValues)
    (m3 : ∀ ch ∈ f3, ch ∈ hexValues) (m4 : ∀ ch ∈ f4, ch ∈ hexValues)
    (l1 : f1.length ≤ 32) (l2 : f2.length ≤ 16) (l3 : f3.length ≤ 16) (l4 : f4.length ≤ 2)
    (hne1 : f1 ≠ []) (hvalid : (traceIDOfField f1).isValid = true)
    (hne2 : f2 ≠ []) (hne3 : f3 ≠ []) :
    (SpanContext.fromStream TraceID.fromStream readSegment
        ⟨f1 ++ ':' :: (f2 ++ ':' :: (f3 ++ ':' :: f4)), true⟩).1 =
      if f4 = [] then SpanContext.default
      else ⟨traceIDOfField f1, decodeHex 64 f2, decodeHex 64 f3, decodeHex 8 f4⟩ := by
  have ht : TraceID.fromStream ⟨f1 ++ ':' :: (f2 ++ ':' :: (f3 ++ ':' :: f4)), true⟩ =
      (traceIDOfField f1, ⟨':' :: (f2 ++ ':' :: (f3 ++ ':' :: f4)), true⟩) := by
    unfold TraceID.fromStream
    rw [readSegment_delimited f1 _ 32 m1 l1]
    have he : f1.isEmpty = false := by
      cases f1 with
      | nil => exact absurd rfl hne1
      | cons _ _ => rfl
    simp only [he, Bool.false_eq_true, if_false, traceIDOfField_eq]
    by_cases hl : f1.length ≤ 16
    · have h2 : ¬ f1.length > 16 := by omega
      simp [h2, hl]
    · have h2 : f1.length > 16 := by omega
      simp [h2, hl]
  have he2 : f2.isEmpty = false := by
    cases f2 with
    | nil => exact absurd rfl hne2
    | cons _ _ => rfl
  have he3 : f3.isEmpty = false := by
    cases f3 with
    | nil => exact absurd rfl hne3
    | cons _ _ => rfl
  unfold SpanContext.fromStream
  simp only [ht, hvalid, get_colon, readSegment_delimited f2 _ 16 m2 l2,
    readSegment_delimited f3 _ 16 m3 l3, readSegment_to_end f4 2 m4 l4, he2, he3,
    Bool.not_true, Bool.false_eq_true, if_false, ne_eq, not_true_eq_false]
  cases f4 with
  | nil => simp
  | cons x xs => simp [SpanContext.default]

theorem writeHex_default_ne_nil (v : Nat) : writeHex [] v true true ≠ [] := by
  rw [writeHex_default]
  split
  · simp
  · rename_i h
    intro hnil
    rw [List.map_eq_nil_iff] at hnil
    exact h ((nibbles_all_zero_iff v).1 (all_zero_of_dropWhile_nil _ hnil))

theorem traceIDOfField_low (low : Nat) :
    traceIDOfField (writeHex [] low true true) = ⟨0, low % 2 ^ 64⟩ := by
  have hlen : ¬ (writeHex [] low true true).length > 16 := by
    have := length_writeHex_le low true true
    omega
  simp only [traceIDOfField, hlen, if_false, decodeHex_writeHex]

theorem flags_field_eq_nil_iff (v : Nat) (hv : v < 256) :
    ((byteNibbles v).dropWhile (· == 0)).map hexChar = [] ↔ v = 0 := by
  rw [List.map_eq_nil_iff]
  constructor
  · intro h
    have hval := valAcc_dropWhile (byteNibbles v)
    rw [h, valAcc_byteNibbles] at hval
    simp only [valAcc, List.foldl_nil] at hval
    omega
  · intro h
    subst h
    decide

theorem decodeHex8_flags (v : Nat) :
    decodeHex 8 (((byteNibbles v).dropWhile (· == 0)).map hexChar) = v % 256 := by
  rw [decodeHex_map 8 _ (fun d hd => byteNibbles_lt v d ((List.dropWhile_sublist _).subset hd)),
    valAcc_dropWhile, valAcc_byteNibbles]
  omega

/-- What `fromStream` returns on the text `inject` writes, with the trace-id reader and
`readSegment` as the spec describes them: the context itself when its flags are not 0, and the
default context when they are 0. -/
theorem fromStream_inject (c : SpanContext) (hwf : c.WF) (hvalid : c.traceID.isValid = true) :
    (SpanContext.fromStream TraceID.fromStream readSegment ⟨c.inject, true⟩).1 =
      if c.flags = 0 then SpanContext.default else c := by
  obtain ⟨⟨high, low⟩, spanID, parentID, flags⟩ := c
  obtain ⟨⟨hhi, hlow⟩, hspan, hparent, hflags⟩ := hwf
  simp only at hhi hlow hspan hparent hflags hvalid ⊢
  have htid : ∃ f1, (if (high != 0) = true then
        writeHex [] high true false ++ writeHex [] low false true
      else writeHex [] low true true) = f1 ∧ (∀ ch ∈ f1, ch ∈ hexValues) ∧ f1.length ≤ 32 ∧
      f1 ≠ [] ∧ traceIDOfField f1 = ⟨high, low⟩ := by
    by_cases h0 : high = 0
    · subst h0
      refine ⟨_, rfl, ?_, ?_, ?_, ?_⟩
      · simpa using writeHex_mem_hexValues low true true
      · have := length_writeHex_le low true true
        simp only [bne_self_eq_false, Bool.false_eq_true, if_false]
        omega
      · simpa using writeHex_default_ne_nil low
      · simp only [bne_self_eq_false, Bool.false_eq_true, if_false]
        rw [traceIDOfField_low, Nat.mod_eq_of_lt hlow]
    · have hb : (high != 0) = true := by simpa using h0
      have hh : high % 2 ^ 64 ≠ 0 := by rw [Nat.mod_eq_of_lt hhi]; exact h0
      obtain ⟨hlen, _, _, _, htr⟩ := traceIDOfField_high_low high low hh
      refine ⟨_, rfl, ?_, ?_, ?_, ?_⟩
      · intro ch hch
        rw [if_pos hb] at hch
        rcases List.mem_append.1 hch with h | h
        · exact writeHex_mem_hexValues _ _ _ ch h
        · exact writeHex_mem_hexValues _ _ _ ch h
      · rw [if_pos hb, List.length_append]
        have h1 := length_writeHex_le high true false
        have h2 := length_writeHex_le low false true
        omega
      · rw [if_pos hb]
        intro hnil
        rw [hnil] at hlen
        simp at hlen
      · rw [if_pos hb, htr, Nat.mod_eq_of_lt hhi, Nat.mod_eq_of_lt hlow]
  obtain ⟨f1, hf1, m1, l1, hne1, htr⟩ := htid
  rw [inject_eq]
  simp only [hf1]
  rw [fromStream_fields f1 _ _ _ m1 (writeHex_mem_hexValues _ _ _)
    (writeHex_mem_hexValues _ _ _) (flags_field_shape flags).2 l1 (length_writeHex_le _ _ _)
    (length_writeHex_le _ _ _) (flags_field_shape flags).1 hne1 (by rw [htr]; exact hvalid)
    (writeHex_default_ne_nil _) (writeHex_default_ne_nil _)]
  simp only [flags_field_eq_nil_iff flags hflags, htr, decodeHex_writeHex, decodeHex8_flags,
    Nat.mod_eq_of_lt hspan, Nat.mod_eq_of_lt hparent, Nat.mod_eq_of_lt hflags]

/-- C17. On the text `inject` writes for the context `{traceID = (0, 255), spanID = 1,
parentID = 0, flags = 0}`, which is `"ff:1:0:"` with an empty flags field, `fromStream` (with
the trace-id reader and `readSegment` as the spec describes them) returns the default context
and not the context that was written; with `flags = 1` the same context is read back. -/
theorem fromStream_rejects_inject_flags_zero :
    SpanContext.inject ⟨⟨0, 255⟩, 1, 0, 0⟩ = "ff:1:0:".toList ∧
      TraceID.isValid ⟨0, 255⟩ = true ∧
      (SpanContext.fromStream TraceID.fromStream readSegment
        ⟨SpanContext.inject ⟨⟨0, 255⟩, 1, 0, 0⟩, true⟩).1 = SpanContext.default ∧
      (SpanContext.fromStream TraceID.fromStream readSegment
        ⟨SpanContext.inject ⟨⟨0, 255⟩, 1, 0, 0⟩, true⟩).1 ≠ ⟨⟨0, 255⟩, 1, 0, 0⟩ ∧
      (SpanContext.fromStream TraceID.fromStream readSegment
        ⟨SpanContext.inject ⟨⟨0, 255⟩, 1, 0, 1⟩, true⟩).1 = ⟨⟨0, 255⟩, 1, 0, 1⟩ := by
  decide

end jaegertracing
